import Mathlib

/-!
Verification development for the antigravity2api-nodejs proxy.

The definitions below are a shallow embedding, in Lean, of the JavaScript
source of the repository: the Gemini CLI account manager
(src/auth/geminicli_token_manager.js), the 429-aware retry helper
(src/server/index.js), the SSE line buffer and stream-chunk parsing
(src/api/stream_parser.js), the upstream error handling
(src/api/geminicli_client.js and src/api/upstreamError.js), the protocol
converters (src/utils/converters/geminicli.js) and the per-dialect stream
writers (src/server/handlers/geminicli/writers.js).

JavaScript values are modelled as follows: machine numbers that are used as
counters or indices become Nat; nullable strings become Option String with
none standing for null, undefined and the empty string (all of which are
falsy in the source and are only ever tested for truthiness); JS objects
become structures; in-place mutation becomes explicit state passing.
Network effects (the OAuth endpoint, the upstream chat endpoint) are
modelled as explicit oracle parameters giving the outcome of each call.
-/

namespace AG
/-! ## JS helpers -/

/-- JS truthiness of an optional string: null, undefined and the empty
string are falsy. -/
def jsTruthyStr (v : Option String) : Bool :=
  match v with
  | none => false
  | some s => decide (s ≠ "")

/-- The JS or-else on optional strings: the first operand when truthy,
else the second. -/
def jsOr (a b : Option String) : Option String :=
  if jsTruthyStr a then a else b

/-! ## C3: the 429-aware retry helper

Embedding of getSafeRetries (src/server/handlers/common/retry.js) and
with429Retry (src/server/index.js lines 66-84, identical clamp).  The
wrapped upstream call fn is modelled by an oracle giving the outcome of
each attempt; attempt k of the JS loop invokes fn(k). -/

/-- Outcome of one invocation of the wrapped upstream call: a result, or a
thrown error carrying an optional numeric status (none models an error
whose status field is absent or not a number). -/
inductive CallOutcome (α : Type) where
  | ok (v : α)
  | err (status : Option Nat)
deriving DecidableEq, Repr

/-- Embedding of getSafeRetries: Number(retryTimes or 0), then
maxRetries > 0 ? Math.floor(maxRetries) : 0.  The argument is a rational
standing for the finite JS number config.retryTimes. -/
def getSafeRetries (retryTimes : ℚ) : Nat :=
  if 0 < retryTimes then ⌊retryTimes⌋.toNat else 0

/-- Embedding of the while(true) loop of with429Retry: attempt starts at 0,
fn(attempt) is invoked, and on an error with status 429 while
attempt < retries the attempt counter is advanced and the loop repeats.
Returns the final outcome together with the total number of invocations
made (the last attempt index plus one). -/
def retryLoop {α : Type} (outcomes : Nat → CallOutcome α) (retries attempt : Nat) :
    CallOutcome α × Nat :=
  match outcomes attempt with
  | .ok v => (.ok v, attempt + 1)
  | .err s =>
    if h : s = some 429 ∧ attempt < retries then
      retryLoop outcomes retries (attempt + 1)
    else
      (.err s, attempt + 1)
termination_by retries - attempt
decreasing_by omega

/-- Embedding of with429Retry itself: the clamp on maxRetries (finite and
positive, floored, else zero) followed by the retry loop from attempt 0. -/
def with429Retry {α : Type} (outcomes : Nat → CallOutcome α) (maxRetries : ℚ) :
    CallOutcome α × Nat :=
  retryLoop outcomes (if 0 < maxRetries then ⌊maxRetries⌋.toNat else 0) 0

/-- The composition the handlers use: safeRetries = getSafeRetries
(config.retryTimes) passed to with429Retry. -/
def runWith429Retry {α : Type} (outcomes : Nat → CallOutcome α) (retryTimes : ℚ) :
    CallOutcome α × Nat :=
  with429Retry outcomes (getSafeRetries retryTimes : ℚ)

/-! ## C8: the SSE line buffer

Embedding of class LineBuffer (src/api/stream_parser.js lines 13-40).  The
append method concatenates the pending buffer with the incoming chunk,
emits every newline-terminated line in order (the while loop over indexOf)
and retains the unterminated tail.  Text is modelled as List Char. -/

/-- The scan the while loop of LineBuffer.append performs over a string:
all maximal newline-terminated lines, in order, plus the unterminated
remainder. -/
def splitLines : List Char → List (List Char) × List Char
  | [] => ([], [])
  | c :: cs =>
    let r := splitLines cs
    if c = '\n' then ([] :: r.1, r.2)
    else
      match r.1 with
      | [] => ([], c :: r.2)
      | l :: ls => ((c :: l) :: ls, r.2)

/-- The state of a LineBuffer instance: the pending unterminated text. -/
structure LineBuffer where
  buffer : List Char
deriving Repr, DecidableEq

/-- Embedding of LineBuffer.append: buffer += chunk, complete lines are
emitted in order and the unterminated tail is retained. -/
def LineBuffer.append (lb : LineBuffer) (chunk : List Char) :
    LineBuffer × List (List Char) :=
  let r := splitLines (lb.buffer ++ chunk)
  (⟨r.2⟩, r.1)

/-- Feeding a sequence of chunks to one LineBuffer via successive append
calls, collecting every emitted line in order. -/
def LineBuffer.appendAll (lb : LineBuffer) : List (List Char) → LineBuffer × List (List Char)
  | [] => (lb, [])
  | c :: cs =>
    let r := lb.append c
    let rest := r.1.appendAll cs
    (rest.1, r.2 ++ rest.2)

/-- The JS split of a string on the newline character: every segment,
including a trailing empty segment when the string ends with a newline. -/
def jsSplitNewline (s : List Char) : List (List Char) :=
  (splitLines s).1 ++ [(splitLines s).2]

/-- One non-newline character prepended to a split result: it extends the
first complete line when there is one, else the remainder. -/
def consChar (c : Char) (r : List (List Char) × List Char) : List (List Char) × List Char :=
  match r.1 with
  | [] => ([], c :: r.2)
  | l :: ls => ((c :: l) :: ls, r.2)

/-- Combining the split of a prefix with the split of a suffix. -/
def combineSplit (a b : List (List Char) × List Char) : List (List Char) × List Char :=
  match b.1 with
  | [] => (a.1, a.2 ++ b.2)
  | l :: ls => (a.1 ++ (a.2 ++ l) :: ls, b.2)

/-! ## C1 and C2: the Gemini CLI account manager

Embedding of GeminiCliTokenManager (src/auth/geminicli_token_manager.js).
The in-memory active list this.tokens, the rotation index and the request
counters form the manager state.  Network calls (the OAuth refresh
endpoint, loadCodeAssist, onboardUser) are modelled by oracles giving the
outcome of each call; the persisted store writes of saveToFile are fire
and forget in the source and do not feed back into the state modelled
here.  The constant TOKEN_REFRESH_BUFFER is imported by the source from a
constants module that is not part of the sources at hand, so the buffer is
an explicit parameter everywhere. -/

/-- JS truthiness of an optional number: null, undefined and 0 are falsy. -/
def jsTruthyNat (v : Option Nat) : Bool :=
  match v with
  | none => false
  | some n => decide (n ≠ 0)

/-- An account of the active list.  Accounts of the in-memory list always
have enable set, so the enable flag is represented by membership in the
list, exactly as disableToken maintains it.  Identity is refresh_token. -/
structure Token where
  refresh_token : String
  access_token : Option String
  expires_in : Option Nat
  timestamp : Option Nat
  projectId : Option String
deriving DecidableEq, Repr

/-- The rotation strategies of the RotationStrategy enum. -/
inductive RotationStrategy where
  | round_robin
  | quota_exhausted
  | request_count
deriving DecidableEq, Repr

/-- The manager state: active list, rotation index, strategy,
request-count threshold and the per-token request counters. -/
structure MgrState where
  tokens : List Token
  currentIndex : Nat
  rotationStrategy : RotationStrategy
  requestCountPerToken : Nat
  tokenRequestCounts : List (String × Nat)
deriving DecidableEq, Repr

/-- Lookup in the request-count map, defaulting to 0 as the source does. -/
def countsGet (m : List (String × Nat)) (k : String) : Nat :=
  match m.find? (fun p => p.1 == k) with
  | some p => p.2
  | none => 0

/-- Store in the request-count map. -/
def countsSet (m : List (String × Nat)) (k : String) (v : Nat) : List (String × Nat) :=
  if m.any (fun p => p.1 == k) then
    m.map (fun p => if p.1 == k then (p.1, v) else p)
  else
    m ++ [(k, v)]

/-- Deletion from the request-count map. -/
def countsDelete (m : List (String × Nat)) (k : String) : List (String × Nat) :=
  m.filter (fun p => !(p.1 == k))

/-- Embedding of isExpired: true when timestamp or expires_in is falsy,
else Date.now() >= timestamp + expires_in*1000 - TOKEN_REFRESH_BUFFER.
The buffer and the clock are explicit parameters. -/
def isExpired (buf now : Nat) (t : Token) : Bool :=
  if !(jsTruthyNat t.timestamp) || !(jsTruthyNat t.expires_in) then true
  else
    decide ((t.timestamp.getD 0 + t.expires_in.getD 0 * 1000 : Int) - buf ≤ now)

/-- Embedding of disableToken: the account is filtered out of the active
list by refresh_token, its request counter is dropped, and the rotation
index is reduced modulo max(length, 1). -/
def disableToken (s : MgrState) (t : Token) : MgrState :=
  let tokens2 := s.tokens.filter (fun x => !(x.refresh_token == t.refresh_token))
  { s with
    tokens := tokens2
    tokenRequestCounts := countsDelete s.tokenRequestCounts t.refresh_token
    currentIndex := s.currentIndex % max tokens2.length 1 }

/-- Embedding of disableCurrentToken: find by access_token, and disable
when found. -/
def disableCurrentToken (s : MgrState) (t : Token) : MgrState :=
  match s.tokens.find? (fun x => x.access_token == t.access_token) with
  | some found => disableToken s found
  | none => s

/-- Embedding of recordRequest of the client module: increment the request
counter when the token and its refresh_token are truthy. -/
def recordRequest (s : MgrState) (t : Token) : MgrState :=
  if t.refresh_token ≠ "" then
    let newCount := countsGet s.tokenRequestCounts t.refresh_token + 1
    { s with tokenRequestCounts := countsSet s.tokenRequestCounts t.refresh_token newCount }
  else s

/-- Embedding of updateRotationConfig: set the strategy when one of the
known strategies is supplied, set the threshold when positive, and clear
the counters. -/
def updateRotationConfig (s : MgrState) (strategy : Option RotationStrategy)
    (requestCount : Nat) : MgrState :=
  let s1 := match strategy with
    | some st => { s with rotationStrategy := st }
    | none => s
  let s2 := if 0 < requestCount then { s1 with requestCountPerToken := requestCount } else s1
  { s2 with tokenRequestCounts := [] }

/-- The payload of a successful OAuth refresh response: the fields the
source reads from response.data. -/
structure RefreshSuccess where
  access_token : Option String
  expires_in : Option Nat
deriving DecidableEq, Repr

/-- Outcome of one call to the OAuth refresh endpoint.  A failure carries
the response status when there is one (error.response?.status). -/
inductive RefreshOutcome where
  | success (data : RefreshSuccess)
  | failure (status : Option Nat)
deriving DecidableEq, Repr

/-- Embedding of refreshToken: on success access_token, expires_in and
timestamp are all replaced from the response and the clock; on failure a
TokenError is raised whose statusCode is the response status or 500. -/
def refreshToken (t : Token) (outcome : RefreshOutcome) (now : Nat) : Except Nat Token :=
  match outcome with
  | .success d =>
    .ok { t with access_token := d.access_token, expires_in := d.expires_in,
                 timestamp := some now }
  | .failure st => .error (st.getD 500)

/-- Embedding of _refreshTokenSafe: success, or disable on TokenError with
statusCode 403 or 400, or the error is rethrown. -/
inductive RefreshSafeResult where
  | success (t2 : Token)
  | disable
  | rethrown (st : Nat)
deriving DecidableEq, Repr

def refreshTokenSafe (t : Token) (outcome : RefreshOutcome) (now : Nat) : RefreshSafeResult :=
  match refreshToken t outcome now with
  | .ok t2 => .success t2
  | .error st => if st = 403 ∨ st = 400 then .disable else .rethrown st

/-- Embedding of _refreshExpiredTokensConcurrently: every expired account
is refreshed through _refreshTokenSafe (successful refreshes replace the
fields of the account object in place), and every account whose refresh
came back disable is then disabled in one batch. -/
def refreshExpiredBatch (resp : Token → RefreshOutcome) (buf now : Nat)
    (s : MgrState) : MgrState :=
  let refreshOne := fun (t : Token) =>
    if isExpired buf now t then
      match refreshToken t (resp t) now with
      | .ok t2 => t2
      | .error _ => t
    else t
  let toDisable := s.tokens.filter
    (fun t => isExpired buf now t && decide (refreshTokenSafe t (resp t) now = .disable))
  let s1 := { s with tokens := s.tokens.map refreshOne }
  toDisable.foldl (fun acc t => disableToken acc t) s1

/-- The fields a successful _prepareToken pass may have replaced on the
account (refresh and project-id bootstrap both mutate in place and keep
refresh_token). -/
structure TokenUpdate where
  access_token : Option String
  expires_in : Option Nat
  timestamp : Option Nat
  projectId : Option String
deriving DecidableEq, Repr

def applyUpdate (t : Token) (u : TokenUpdate) : Token :=
  { t with access_token := u.access_token, expires_in := u.expires_in,
           timestamp := u.timestamp, projectId := u.projectId }

/-- The outcome of _prepareToken on one account: ready (with the fields it
left on the account), the disable verdict (project id unavailable), or a
thrown error carrying statusCode when the error has one. -/
inductive PrepOutcome where
  | ready (u : TokenUpdate)
  | disable
  | errorStatus (statusCode : Option Nat)

/-- Embedding of _handleTokenError: disable exactly on statusCode 403 or
400, otherwise skip. -/
def handleTokenError (st : Option Nat) : Bool :=
  st == some 403 || st == some 400

/-- Result of getToken: an account, null, or an uncaught JS TypeError
(which the source raises when an index beyond the shrunk active list is
visited after a disable in the same scan). -/
inductive GetTokenResult where
  | got (t : Token)
  | noToken
  | jsError
deriving Repr

/-- The strategy step of getToken after a successful prepare: the rotation
index has just been set to the index of the served account. -/
def advanceIndex (s : MgrState) (t : Token) : MgrState :=
  match s.rotationStrategy with
  | .round_robin => { s with currentIndex := (s.currentIndex + 1) % s.tokens.length }
  | .request_count =>
    let count := countsGet s.tokenRequestCounts t.refresh_token
    if s.requestCountPerToken ≤ count then
      { s with
        tokenRequestCounts := countsSet s.tokenRequestCounts t.refresh_token 0
        currentIndex := (s.currentIndex + 1) % s.tokens.length }
    else s
  | .quota_exhausted => s

/-- The scan loop of getToken: totalTokens and startIndex are captured
before the loop; iteration i visits index (startIndex + i) % totalTokens
of the current active list. -/
def getTokenLoop (prep : Token → PrepOutcome) (totalTokens startIndex : Nat) :
    Nat → Nat → MgrState → MgrState × GetTokenResult
  | 0, _, s => (s, .noToken)
  | remaining + 1, i, s =>
    let index := (startIndex + i) % totalTokens
    match s.tokens.get? index with
    | none => (s, .jsError)
    | some t =>
      match prep t with
      | .ready u =>
        let t2 := applyUpdate t u
        let s2 := { s with tokens := s.tokens.set index t2, currentIndex := index }
        (advanceIndex s2 t2, .got t2)
      | .disable =>
        let s2 := disableToken s t
        if s2.tokens.length = 0 then (s2, .noToken)
        else getTokenLoop prep totalTokens startIndex remaining (i + 1) s2
      | .errorStatus st =>
        if handleTokenError st then
          let s2 := disableToken s t
          if s2.tokens.length = 0 then (s2, .noToken)
          else getTokenLoop prep totalTokens startIndex remaining (i + 1) s2
        else getTokenLoop prep totalTokens startIndex remaining (i + 1) s

/-- Embedding of getToken: null on an empty pool, else the scan over at
most totalTokens candidates. -/
def getToken (prep : Token → PrepOutcome) (s : MgrState) : MgrState × GetTokenResult :=
  if s.tokens.length = 0 then (s, .noToken)
  else getTokenLoop prep s.tokens.length s.currentIndex s.tokens.length 0 s

/-- The manager operations the rotation claims quantify over. -/
inductive MgrOp where
  | opGetToken (prep : Token → PrepOutcome)
  | opDisable (t : Token)
  | opDisableCurrent (t : Token)
  | opRecordRequest (t : Token)
  | opUpdateRotation (strategy : Option RotationStrategy) (requestCount : Nat)

def runOp (op : MgrOp) (s : MgrState) : MgrState × Option Token :=
  match op with
  | .opGetToken prep =>
    let r := getToken prep s
    (r.1, match r.2 with | .got t => some t | _ => none)
  | .opDisable t => (disableToken s t, none)
  | .opDisableCurrent t => (disableCurrentToken s t, none)
  | .opRecordRequest t => (recordRequest s t, none)
  | .opUpdateRotation st rc => (updateRotationConfig s st rc, none)

/-- Running a sequence of manager operations, collecting every account a
getToken call returned. -/
def runOps : List MgrOp → MgrState → MgrState × List Token
  | [], s => (s, [])
  | op :: ops, s =>
    let r := runOp op s
    let rest := runOps ops r.1
    (rest.1, (match r.2 with | some t => [t] | none => []) ++ rest.2)

/-- The rotation-index invariant that actually holds: the index is below
the size of the active list whenever the list is nonempty, and 0 when it
is empty. -/
def indexInv (s : MgrState) : Prop :=
  s.currentIndex < max s.tokens.length 1

/-! ## C9: 403 handling in the Gemini CLI client

Embedding of handleApiError (src/api/geminicli_client.js lines 89-106) and
isCallerDoesNotHavePermission (src/api/upstreamError.js lines 40-46).  The
error body handed to handleApiError is the string produced by
readUpstreamErrorBody; isCallerDoesNotHavePermission applies
JSON.stringify to that string - which is exactly JSON string quoting with
the standard escapes - and looks for the marker phrase. -/

/-- Lowercase hexadecimal digit, as used by the \u00XX escapes of
JSON.stringify. -/
def hexDigitChar (n : Nat) : Char :=
  match n with
  | 0 => '0' | 1 => '1' | 2 => '2' | 3 => '3' | 4 => '4' | 5 => '5' | 6 => '6' | 7 => '7'
  | 8 => '8' | 9 => '9' | 10 => 'a' | 11 => 'b' | 12 => 'c' | 13 => 'd' | 14 => 'e' | _ => 'f'

/-- The escape JSON.stringify applies to one character of a string. -/
def jsonEscapeChar (c : Char) : List Char :=
  if c = '"' then ['\\', '"']
  else if c = '\\' then ['\\', '\\']
  else if c = '\x08' then ['\\', 'b']
  else if c = '\x0c' then ['\\', 'f']
  else if c = '\n' then ['\\', 'n']
  else if c = '\x0d' then ['\\', 'r']
  else if c = '\t' then ['\\', 't']
  else if c.toNat < 32 then
    ['\\', 'u', '0', '0', hexDigitChar (c.toNat / 16), hexDigitChar (c.toNat % 16)]
  else [c]

/-- JSON.stringify of a string value: quotes around the escaped body. -/
def jsonQuoteString (s : List Char) : List Char :=
  '"' :: s.flatMap jsonEscapeChar ++ ['"']

/-- The marker phrase of UpstreamPermissionDenied. -/
def callerPhrase : List Char := "The caller does not".toList

/-- Embedding of isCallerDoesNotHavePermission: the stringified body
contains the marker phrase. -/
def isCallerDoesNotHavePermission (errorBody : List Char) : Bool :=
  decide (callerPhrase <:+: jsonQuoteString errorBody)

/-- The error kinds the client surfaces from handleApiError. -/
inductive ApiErrorKind where
  | contextOverflow
  | permissionDenied
  | rateLimit
  | generic
deriving DecidableEq, Repr

/-- The thrown createApiError value: kind of message, upstream status and
upstream body. -/
structure ApiError where
  kind : ApiErrorKind
  status : Nat
  body : List Char
deriving DecidableEq, Repr

/-- Embedding of handleApiError: on 403 either the context-overflow error
(marker phrase present, no account disabled) or disableCurrentToken
followed by the permission-denied error; 429 and other statuses only
re-wrap.  Every branch throws an error carrying the status and body. -/
def handleApiError (s : MgrState) (t : Token) (status : Nat) (errorBody : List Char) :
    MgrState × ApiError :=
  if status = 403 then
    if isCallerDoesNotHavePermission errorBody then
      (s, ⟨.contextOverflow, status, errorBody⟩)
    else
      (disableCurrentToken s t, ⟨.permissionDenied, status, errorBody⟩)
  else if status = 429 then
    (s, ⟨.rateLimit, status, errorBody⟩)
  else
    (s, ⟨.generic, status, errorBody⟩)

/-! ## C10: the SSE chunk parse

Embedding of parseAndEmitStreamChunk (src/api/stream_parser.js lines
93-177) together with convertToToolCall (lines 76-87).  JSON.parse is an
oracle parameter (none models a parse exception); generateToolCallId and
getOriginalToolName (the tool-name cache module is not among the sources
at hand) are oracle parameters as well, as are shouldCacheSignature and
isImageModel of the signature-cache module.  Every route by which the
source can raise - and silently swallow - a TypeError (a null jsonValue
for the first member access, a truthy non-iterable parts value, a null
element among the parts) is modelled explicitly, so that partial effects
before a swallowed exception are preserved exactly as in the source. -/

/-- Parsed JSON values. -/
inductive JValue where
  | null
  | bool (b : Bool)
  | num (q : ℚ)
  | str (s : String)
  | arr (elems : List JValue)
  | obj (fields : List (String × JValue))

/-- JS property access returning undefined (none) when the key is absent
or the value is not an object.  Accesses on null are modelled separately
(they throw), and every use of this helper in the embedding sits behind
optional chaining in the source. -/
def jfield (v : JValue) (key : String) : Option JValue :=
  match v with
  | .obj fields =>
    match fields.find? (fun p => p.1 == key) with
    | some p => some p.2
    | none => none
  | _ => none

/-- JS index access of candidates[0]. -/
def jindex (v : JValue) (i : Nat) : Option JValue :=
  match v with
  | .arr l => l.get? i
  | .str s => (s.toList.get? i).map (fun c => .str c.toString)
  | .obj fields =>
    match fields.find? (fun p => p.1 == toString i) with
    | some p => some p.2
    | none => none
  | _ => none

/-- JS truthiness of a possibly-absent value. -/
def jTruthy (v : Option JValue) : Bool :=
  match v with
  | none => false
  | some .null => false
  | some (.bool b) => b
  | some (.num q) => decide (q ≠ 0)
  | some (.str s) => decide (s ≠ "")
  | some (.arr _) => true
  | some (.obj _) => true

/-- The or-else of the source on possibly-absent JSON values. -/
def jsOrJ (a b : Option JValue) : Option JValue :=
  if jTruthy a then a else b

mutual

/-- JSON.stringify of a parsed value (as used for function-call
arguments). -/
def stringifyJValue : JValue → String
  | .null => "null"
  | .bool b => if b then "true" else "false"
  | .num q => toString q
  | .str s => String.mk (jsonQuoteString s.toList)
  | .arr l => "[" ++ stringifyJArr l ++ "]"
  | .obj l => "\x7b" ++ stringifyJObj l ++ "\x7d"

def stringifyJArr : List JValue → String
  | [] => ""
  | [x] => stringifyJValue x
  | x :: xs => stringifyJValue x ++ "," ++ stringifyJArr xs

def stringifyJObj : List (String × JValue) → String
  | [] => ""
  | [p] => String.mk (jsonQuoteString p.1.toList) ++ ":" ++ stringifyJValue p.2
  | p :: ps =>
    String.mk (jsonQuoteString p.1.toList) ++ ":" ++ stringifyJValue p.2 ++ "," ++
      stringifyJObj ps

end

mutual

/-- JS string coercion, used for the += accumulation of reasoning text
(display only: no claim depends on the rendering of non-string values). -/
def jsToString : JValue → String
  | .null => "null"
  | .bool b => if b then "true" else "false"
  | .num q => toString q
  | .str s => s
  | .arr l => jsToStringArr l
  | .obj _ => "[object Object]"

def jsToStringArr : List JValue → String
  | [] => ""
  | [x] => jsToString x
  | x :: xs => jsToString x ++ "," ++ jsToStringArr xs

end

/-- A tool call assembled by convertToToolCall, with the thoughtSignature
the parse loop may attach. -/
structure ToolCall where
  id : JValue
  name : Option JValue
  argumentsJson : Option String
  thoughtSignature : Option JValue

/-- The mutable parse state threaded by the stream client. -/
structure ParseState where
  reasoningContent : String
  reasoningSignature : Option JValue
  toolCalls : List ToolCall
  hasToolCalls : Bool
  sessionId : Option String
  model : Option String

/-- The events the parse emits through the callback. -/
inductive StreamEvent where
  | reasoning (content : String) (thoughtSignature : Option JValue)
  | text (content : Option JValue)
  | toolCalls (calls : List ToolCall)
  | usage (prompt completion total : JValue)

/-- A deferred write into the thought-signature cache, performed at
finishReason. -/
structure CacheWrite where
  model : String
  signature : JValue
  content : String
  hasTools : Bool
  isImageModel : Bool

/-- Embedding of convertToToolCall: id from the functionCall or the
generated id, the name resolved through the tool-name cache when a model
is known, and the arguments stringified. -/
def convertToToolCall (genId : String)
    (origName : Option String → Option JValue → Option String)
    (fc : JValue) (model : Option String) : ToolCall :=
  let idv := if jTruthy (jfield fc "id") then (jfield fc "id").getD .null else .str genId
  let name0 := jfield fc "name"
  let name :=
    if jsTruthyStr model then
      match origName model name0 with
      | some o => some (.str o)
      | none => name0
    else name0
  { id := idv, name := name,
    argumentsJson := (jfield fc "args").map stringifyJValue,
    thoughtSignature := none }

/-- The classification of the parts value feeding the for-of loop:
a list to iterate (arrays, and strings whose characters yield no events),
a falsy value that skips the loop but still reaches the finishReason
section, or a truthy non-iterable that raises a caught TypeError. -/
inductive PartsView where
  | iter (parts : List JValue)
  | skipLoop
  | throwErr

def partsView : Option JValue → PartsView
  | none => .skipLoop
  | some .null => .skipLoop
  | some (.bool b) => if b then .throwErr else .skipLoop
  | some (.num q) => if q = 0 then .skipLoop else .throwErr
  | some (.str s) => .iter (s.toList.map (fun c => .str c.toString))
  | some (.arr l) => .iter l
  | some (.obj _) => .throwErr

/-- Effect of the loop body on one non-null part.  The guarded assignment
of a changed thoughtSignature is modelled as an unconditional assignment
when truthy, which is observationally identical. -/
def processPart (genId : String)
    (origName : Option String → Option JValue → Option String)
    (st : ParseState) (p : JValue) : ParseState × List StreamEvent :=
  let sigField := jfield p "thoughtSignature"
  let st1 := if jTruthy sigField then { st with reasoningSignature := sigField } else st
  let isThoughtTrue := match jfield p "thought" with
    | some (.bool true) => true
    | _ => false
  if isThoughtTrue then
    let textField := jfield p "text"
    let st2 :=
      if jTruthy textField then
        { st1 with reasoningContent := st1.reasoningContent ++ jsToString (textField.getD .null) }
      else st1
    let st3 := if jTruthy sigField then { st2 with reasoningSignature := sigField } else st2
    let content := if jTruthy textField then jsToString (textField.getD .null) else ""
    (st3, [.reasoning content (jsOrJ sigField (jsOrJ st3.reasoningSignature none))])
  else if (jfield p "text").isSome then
    (st1, [.text (jfield p "text")])
  else if jTruthy (jfield p "functionCall") then
    let fc := (jfield p "functionCall").getD .null
    let tc0 := convertToToolCall genId origName fc st1.model
    let sig := jsOrJ sigField (jsOrJ st1.reasoningSignature none)
    match sig with
    | some sv =>
      ({ st1 with hasToolCalls := true,
                  toolCalls := st1.toolCalls ++ [{ tc0 with thoughtSignature := some sv }] }, [])
    | none => ({ st1 with toolCalls := st1.toolCalls ++ [tc0] }, [])
  else (st1, [])

/-- The for-of loop over the parts; a null part raises a caught TypeError
on its first member access, keeping the effects made so far. -/
def processParts (genId : String)
    (origName : Option String → Option JValue → Option String)
    (st : ParseState) : List JValue → ParseState × List StreamEvent × Bool
  | [] => (st, [], false)
  | p :: ps =>
    match p with
    | .null => (st, [], true)
    | _ =>
      let r := processPart genId origName st p
      let rest := processParts genId origName r.1 ps
      (rest.1, r.2 ++ rest.2.1, rest.2.2)

/-- The || 0 defaulting of the usage counters. -/
def usageField (v : Option JValue) : JValue :=
  match v with
  | some x => if jTruthy (some x) then x else .num 0
  | none => .num 0

/-- The finishReason section: optional signature-cache write, tool-call
flush, usage event and the clearing of the accumulated state. -/
def finishSection (shouldCache : Bool → Bool → Bool) (isImage : Option String → Bool)
    (data : JValue) (st : ParseState) :
    ParseState × List StreamEvent × Option CacheWrite :=
  let hasTools := st.hasToolCalls || decide (st.toolCalls.length > 0)
  let isImg := isImage st.model
  let cacheWrite :=
    if jsTruthyStr st.model ∧ jTruthy st.reasoningSignature then
      if shouldCache hasTools isImg then
        some { model := st.model.getD "", signature := st.reasoningSignature.getD .null,
               content := if st.reasoningContent = "" then " " else st.reasoningContent,
               hasTools := hasTools, isImageModel := isImg }
      else none
    else none
  let toolEvents :=
    if st.toolCalls.length > 0 then [StreamEvent.toolCalls st.toolCalls] else []
  let st1 := if st.toolCalls.length > 0 then { st with toolCalls := [] } else st
  let usageVal := (jfield data "response").bind (fun r => jfield r "usageMetadata")
  let usageEvents :=
    if jTruthy usageVal then
      let u := usageVal.getD .null
      [StreamEvent.usage (usageField (jfield u "promptTokenCount"))
        (usageField (jfield u "candidatesTokenCount"))
        (usageField (jfield u "totalTokenCount"))]
    else []
  let st2 := { st1 with reasoningContent := "", hasToolCalls := false }
  (st2, toolEvents ++ usageEvents, cacheWrite)

/-- Embedding of parseAndEmitStreamChunk.  The returned triple is the
final parse state, the events emitted through the callback in order, and
the signature-cache write when one happens.  Every exception of the
source is caught by its try/catch; its cut-off point is modelled exactly,
so the Lean function is total. -/
def parseAndEmitStreamChunk (parseJson : String → Option JValue) (genId : String)
    (origName : Option String → Option JValue → Option String)
    (shouldCache : Bool → Bool → Bool) (isImage : Option String → Bool)
    (line : String) (st : ParseState) :
    ParseState × List StreamEvent × Option CacheWrite :=
  if !(line.startsWith "data: ") then (st, [], none)
  else
    match parseJson (line.drop 6) with
    | none => (st, [], none)
    | some data =>
      match data with
      | .null => (st, [], none)
      | _ =>
        let candidate0 := ((jfield data "response").bind fun r =>
          (jfield r "candidates").bind fun cs => jindex cs 0)
        let partsOpt := candidate0.bind fun c0 =>
          (jfield c0 "content").bind fun ct => jfield ct "parts"
        let afterLoop :=
          match partsView partsOpt with
          | .throwErr => (st, ([], true))
          | .skipLoop => (st, ([], false))
          | .iter l =>
            let r := processParts genId origName st l
            (r.1, (r.2.1, r.2.2))
        if afterLoop.2.2 then (afterLoop.1, afterLoop.2.1, none)
        else
          let finishTruthy := jTruthy (candidate0.bind fun c0 => jfield c0 "finishReason")
          if finishTruthy then
            let fin := finishSection shouldCache isImage data afterLoop.1
            (fin.1, afterLoop.2.1 ++ fin.2.1, fin.2.2)
          else (afterLoop.1, afterLoop.2.1, none)

/-! ## C5: the Gemini CLI signature resolution

Embedding of getGeminiCliSignatureContext
(src/utils/converters/geminicli.js lines 160-202).  The signature cache
(src/utils/thoughtSignatureCache.js), the cache view getSignatureContext
(src/utils/converters/common.js) and the hardcoded per-model defaults
getThoughtSignatureForModel / getToolSignatureForModel (src/utils/utils.js)
are not among the sources at hand; the cache and its view are modelled
from the spec, and the hardcoded defaults are oracle parameters. -/

/-- The sentinel signature of the last-resort fallback. -/
def SKIP_THOUGHT_SIGNATURE_VALIDATOR : String := "skip_thought_signature_validator"

/-- One entry of the thought-signature cache.  Modelled from the spec:
the key is (model, bucket) with bucket distinguished by the hasTools
flag, the value carries the signature and the text of the associated
thought. -/
structure SigCacheEntry where
  model : String
  hasTools : Bool
  signature : String
  content : String
deriving DecidableEq, Repr

/-- Modelled from the spec: the process-wide thought-signature cache of
src/utils/thoughtSignatureCache.js, which is not among the sources at
hand. -/
structure SigCache where
  entries : List SigCacheEntry
deriving DecidableEq, Repr

def cacheGet (c : SigCache) (model : String) (hasTools : Bool) : Option (String × String) :=
  match c.entries.find? (fun e => e.model == model && e.hasTools == hasTools) with
  | some e => some (e.signature, e.content)
  | none => none

/-- The four-field context getSignatureContext returns. -/
structure SigContext where
  reasoningSignature : Option String
  reasoningContent : Option String
  toolSignature : Option String
  toolContent : Option String
deriving DecidableEq, Repr

/-- The empty context ({}), used when no signature is needed. -/
def emptySigContext : SigContext := ⟨none, none, none, none⟩

/-- Modelled from the spec: getSignatureContext of
src/utils/converters/common.js, which is not among the sources at hand.
Per the spec the cache holds independent entries per (model, bucket); the
context carries the cached reasoning bucket and, when the request has
tools, the cached tool bucket. -/
def getSignatureContext (cache : SigCache) (model : String) (hasTools : Bool) : SigContext :=
  let r := cacheGet cache model false
  let t := if hasTools then cacheGet cache model true else none
  { reasoningSignature := r.map Prod.fst, reasoningContent := r.map Prod.snd,
    toolSignature := t.map Prod.fst, toolContent := t.map Prod.snd }

/-- Embedding of getGeminiCliSignatureContext: the cached context when it
holds a signature for either bucket; otherwise the hardcoded per-model
defaults (the tool bucket consulting the hardcoded tool signature only
when the request has tools, and each bucket falling back to the other);
otherwise the sentinel for both buckets. -/
def getGeminiCliSignatureContext (cache : SigCache)
    (hardThought hardTool : String → Option String)
    (actualModelName : String) (hasTools : Bool) : SigContext :=
  let cached := getSignatureContext cache actualModelName hasTools
  if jsTruthyStr cached.reasoningSignature || jsTruthyStr cached.toolSignature then cached
  else
    let reasoningSignature := hardThought actualModelName
    let toolSignature := if hasTools then hardTool actualModelName else reasoningSignature
    if jsTruthyStr reasoningSignature || jsTruthyStr toolSignature then
      { reasoningSignature := jsOr reasoningSignature toolSignature,
        reasoningContent := some " ",
        toolSignature := jsOr toolSignature reasoningSignature,
        toolContent := some " " }
    else
      { reasoningSignature := some SKIP_THOUGHT_SIGNATURE_VALIDATOR,
        reasoningContent := some " ",
        toolSignature := some SKIP_THOUGHT_SIGNATURE_VALIDATOR,
        toolContent := some " " }

/-! ### C4: tool-call signature attachment across the three dialects

Embeddings of src/src/utils/converters/geminicli.js: the model-name
feature helpers (lines 29-110), extractContent (117-158), convertMessages
(212-337), extractClaudeContent (695-719), convertClaudeMessages
(759-885), processGeminiModelThoughts (509-592) and the contents/thinking
part of convertGeminiToGeminiCli (600-688).  The helpers imported from
src/utils/converters/common.js (createThoughtPart, createFunctionCallPart,
processToolName) and src/utils/utils.js (sanitizeToolName,
isEnableThinking) are not among the sources at hand: the two part
constructors are modelled from the spec and the name/thinking helpers are
oracle parameters. -/

/-- JS String.prototype.startsWith. -/
def jsStartsWith (s p : String) : Bool := decide (p.toList <+: s.toList)

/-- JS String.prototype.includes. -/
def jsIncludes (s sub : String) : Bool := decide (sub.toList <:+: s.toList)

/-- The feature-prefix list of the converter. -/
def FEATURE_PREFIXES : List String := ["假流式/", "流式抗截断/"]

def isFakeStreamingModel (modelName : String) : Bool := jsStartsWith modelName "假流式/"

def isAntiTruncationModel (modelName : String) : Bool := jsStartsWith modelName "流式抗截断/"

/-- getBaseModelName: strip the first matching feature prefix. -/
def getBaseModelName (modelName : String) : String :=
  match FEATURE_PREFIXES.find? (fun p => jsStartsWith modelName p) with
  | some p => (modelName.toList.drop p.toList.length).asString
  | none => modelName

def isMaxThinkingModel (modelName : String) : Bool := jsIncludes modelName "-maxthinking"

def isNoThinkingModel (modelName : String) : Bool := jsIncludes modelName "-nothinking"

def isSearchModel (modelName : String) : Bool := jsIncludes modelName "-search"

/-- JS String.prototype.replace with a global literal pattern and empty
replacement: remove the leftmost occurrences left to right, resuming
after each removed occurrence.  The fuel argument (one unit per consumed
character) only makes the recursion structural; it never runs out since
it starts at the length of the list. -/
def removeAllFuel (pat : List Char) : Nat → List Char → List Char
  | _, [] => []
  | 0, l => l
  | fuel + 1, c :: rest =>
    if pat ≠ [] ∧ pat <+: (c :: rest) then removeAllFuel pat fuel (rest.drop (pat.length - 1))
    else c :: removeAllFuel pat fuel rest

def removeAll (pat l : List Char) : List Char := removeAllFuel pat l.length l

/-- getActualApiModelName: strip the feature prefix and the
-maxthinking / -nothinking / -search suffixes (all occurrences). -/
def getActualApiModelName (modelName : String) : String :=
  (removeAll "-search".toList
    (removeAll "-nothinking".toList
      (removeAll "-maxthinking".toList (getBaseModelName modelName).toList))).asString

/-- An inlineData image part payload. -/
structure InlineData where
  mimeType : String
  data : String

/-- A fileData image part payload. -/
structure FileData where
  mimeType : String
  fileUri : String

/-- A functionCall payload: createFunctionCallPart(id, name, args,
signature) builds parts around it; Gemini-dialect clients may also send
them.  Ids are modelled as strings (a non-string id never compares equal
to a string tool_call_id, like none here). -/
structure FunctionCall where
  id : Option String := none
  name : Option String := none
  args : Option JValue := none

/-- One item of an OpenAI content array.  `other` stands for items of
any other type, which every branch of extractContent ignores. -/
inductive OAContentItem where
  | text (t : Option String)
  | image_url (url : Option String)
  | other

/-- An OpenAI message content: a string, an array of items, or any other
truthy value (`other`); absent/null content is `none` at the use sites. -/
inductive OAContent where
  | str (s : String)
  | arr (items : List OAContentItem)
  | other

/-- A functionResponse payload.  The name may be undefined (`none`) on
the Claude path when the back-search finds a functionCall without a
name. -/
structure FunctionResponse where
  id : Option String := none
  name : Option String := none
  output : OAContent := OAContent.str ""

/-- A Gemini request part.  Signature and text values are modelled as
strings (the values the converters write are always strings); the
`thought` field keeps JS booleans so that `thought === true` and
truthiness of `thought` stay distinguishable. -/
structure GPart where
  text : Option String := none
  thought : Option Bool := none
  thoughtSignature : Option String := none
  functionCall : Option FunctionCall := none
  functionResponse : Option FunctionResponse := none
  inlineData : Option InlineData := none
  fileData : Option FileData := none

/-- A role-tagged Gemini content. -/
structure GContent where
  role : String
  parts : List GPart

/-- Truthiness of a JS boolean-or-absent value. -/
def jsTruthyBool (v : Option Bool) : Bool :=
  match v with
  | some b => b
  | none => false

/-- The regex match of extractContent for data: URLs,
`^data:([^;]+);base64,(.+)$` (the dot does not cross line
terminators). -/
def dataUrlParse (url : String) : Option (String × String) :=
  let l := url.toList
  if decide ("data:".toList <+: l) then
    let rest := l.drop 5
    let mime := rest.takeWhile (fun c => decide (c ≠ ';'))
    let after := rest.drop mime.length
    if mime.isEmpty then none
    else if decide (";base64,".toList <+: after) then
      let data := after.drop 8
      if data.isEmpty then none
      else if data.all (fun c =>
          decide (c ≠ '\n') && decide (c ≠ '\r') &&
          decide (c.toNat ≠ 0x2028) && decide (c.toNat ≠ 0x2029)) then
        some (mime.asString, data.asString)
      else none
    else none
  else none

/-- extractContent: a string content is all text; an array accumulates
text items and image parts (data: URLs that match the regex become
inlineData, any other URL becomes fileData); anything else is empty. -/
def extractContent (content : Option OAContent) : String × List GPart :=
  match content with
  | some (OAContent.str s) => (s, [])
  | some (OAContent.arr items) =>
    items.foldl (fun acc item =>
      match item with
      | OAContentItem.text t => (acc.1 ++ t.getD "", acc.2)
      | OAContentItem.image_url u =>
        let url := u.getD ""
        if jsStartsWith url "data:" then
          match dataUrlParse url with
          | some md => (acc.1, acc.2 ++ [{ inlineData := some ⟨md.1, md.2⟩ }])
          | none => acc
        else (acc.1, acc.2 ++ [{ fileData := some ⟨"image/jpeg", url⟩ }])
      | OAContentItem.other => acc) ("", [])
  | _ => ("", [])

/-- Modelled from the spec: createThoughtPart of
src/utils/converters/common.js, which is not among the sources at hand;
per the spec a thought part is a text part with thought true carrying
the thoughtSignature. -/
def createThoughtPart (content : String) (signature : String) : GPart :=
  { text := some content, thought := some true, thoughtSignature := some signature }

/-- Modelled from the spec: createFunctionCallPart of
src/utils/converters/common.js, which is not among the sources at hand;
per the spec a function-call part carries the functionCall payload and
the thoughtSignature. -/
def createFunctionCallPart (id : Option String) (name : String) (args : Option JValue)
    (signature : String) : GPart :=
  { functionCall := some ⟨id, some name, args⟩, thoughtSignature := some signature }

/-- The oracle bundle of the converters: the signature cache and
hardcoded defaults (as in getGeminiCliSignatureContext), the
isEnableThinking predicate, the processToolName / sanitizeToolName name
mappings and JSON.parse. -/
structure ConvEnv where
  cache : SigCache
  hardThought : String → Option String
  hardTool : String → Option String
  thinkingFor : String → Bool
  processName : Option String → String
  sanitizeName : Option String → String
  parseJson : String → Option JValue

/-- The signature every function-call part is given when it has none of
its own: toolSignature || reasoningSignature ||
SKIP_THOUGHT_SIGNATURE_VALIDATOR. -/
def resolveToolSig (ctx : SigContext) : String :=
  (jsOr ctx.toolSignature
    (jsOr ctx.reasoningSignature (some SKIP_THOUGHT_SIGNATURE_VALIDATOR))).getD
    SKIP_THOUGHT_SIGNATURE_VALIDATOR

/-- The context convertMessages / convertClaudeMessages resolve: the
full getGeminiCliSignatureContext when thinking is enabled or tools are
present, the empty object otherwise. -/
def msgSigContext (env : ConvEnv) (enableThinking : Bool) (actualModelName : String)
    (hasTools : Bool) : SigContext :=
  if enableThinking || hasTools then
    getGeminiCliSignatureContext env.cache env.hardThought env.hardTool actualModelName hasTools
  else emptySigContext

/-- The arguments field of an OpenAI tool call: a string to be parsed,
or a non-string JSON value taken as-is; `none` at the use site is an
absent field. -/
inductive OAArgs where
  | str (s : String)
  | json (v : JValue)

/-- The args computation of the tool_calls branch: parse string
arguments, falling back to \x7bquery: arguments\x7d when JSON.parse
throws; take non-string arguments as-is (absent stays absent). -/
def computeArgs (parseJson : String → Option JValue) (a : Option OAArgs) : Option JValue :=
  match a with
  | none => none
  | some (OAArgs.str s) =>
    match parseJson s with
    | some v => some v
    | none => some (JValue.obj [("query", JValue.str s)])
  | some (OAArgs.json v) => some v

/-- The function object of an OpenAI tool call. -/
structure OAToolCallFunction where
  name : Option String := none
  arguments : Option OAArgs := none

/-- An OpenAI tool call. -/
structure OAToolCall where
  type : String := ""
  id : Option String := none
  function : OAToolCallFunction := {}

/-- An OpenAI chat message. -/
structure OAMessage where
  role : String
  content : Option OAContent := none
  reasoning_content : Option String := none
  tool_calls : Option (List OAToolCall) := none
  tool_call_id : Option String := none
  name : Option String := none

/-- Truthiness of an optional content value ("" is falsy, arrays and
other objects are truthy). -/
def jsTruthyContent (c : Option OAContent) : Bool :=
  match c with
  | none => false
  | some (OAContent.str s) => decide (s ≠ "")
  | some (OAContent.arr _) => true
  | some OAContent.other => true

/-- The backwards search for a tool call's function name: walk the
built contents from the last one backwards (the list argument is the
reversed contents), take from each model content the first part whose
functionCall id equals the tool call id, and stop as soon as the tracked
name variable is truthy. -/
def searchToolName (toolCallId : Option String) : List GContent → Option String → Option String
  | [], acc => acc
  | c :: rest, acc =>
    let acc2 :=
      if c.role = "model" then
        match c.parts.find? (fun p =>
          match p.functionCall with
          | some fc => decide (fc.id = toolCallId)
          | none => false) with
        | some p =>
          match p.functionCall with
          | some fc => fc.name
          | none => acc
        | none => acc
      else acc
    if jsTruthyStr acc2 then acc2 else searchToolName toolCallId rest acc2

/-- The functionResponse merge of the tool branches: append the part to
the last content when it is a user content already holding a
functionResponse, else push a fresh user content. -/
def pushFunctionResponse (contents : List GContent) (frPart : GPart) : List GContent :=
  match contents.getLast? with
  | some last =>
    if last.role = "user" ∧ last.parts.any (fun p => p.functionResponse.isSome) then
      contents.dropLast ++ [{ last with parts := last.parts ++ [frPart] }]
    else contents ++ [⟨"user", [frPart]⟩]
  | none => contents ++ [⟨"user", [frPart]⟩]

/-- The text-then-images part list built from an extracted content
(a text part only when the text is nonempty). -/
def extractedParts (extracted : String × List GPart) : List GPart :=
  (if extracted.1 ≠ "" then [({ text := some extracted.1 } : GPart)] else []) ++ extracted.2

/-- The thought part of an OpenAI assistant message: the
reasoning_content when thinking is enabled and present, else the cached
thought content, both under the reasoning-then-tool signature. -/
def oaThinkParts (ctx : SigContext) (enableThinking : Bool)
    (reasoning_content : Option String) : List GPart :=
  if enableThinking && jsTruthyStr reasoning_content then
    let signature := jsOr ctx.reasoningSignature ctx.toolSignature
    if jsTruthyStr signature then
      [createThoughtPart (reasoning_content.getD "") (signature.getD "")]
    else []
  else if enableThinking then
    let signature := jsOr ctx.reasoningSignature ctx.toolSignature
    let content :=
      if signature = ctx.reasoningSignature then ctx.reasoningContent else ctx.toolContent
    if jsTruthyStr signature then
      [createThoughtPart (if jsTruthyStr content then content.getD "" else " ")
        (signature.getD "")]
    else []
  else []

/-- The content parts of an OpenAI assistant message (only when the
content is truthy). -/
def oaContentParts (content : Option OAContent) : List GPart :=
  if jsTruthyContent content then extractedParts (extractContent content) else []

/-- The function-call parts of an OpenAI assistant message: one part
per function-typed tool call, each carrying the resolved tool
signature. -/
def oaToolParts (env : ConvEnv) (ctx : SigContext) (tool_calls : Option (List OAToolCall)) :
    List GPart :=
  match tool_calls with
  | some tcs =>
    tcs.foldl (fun ps tc =>
      if tc.type = "function" then
        ps ++ [createFunctionCallPart tc.id (env.processName tc.function.name)
          (computeArgs env.parseJson tc.function.arguments) (resolveToolSig ctx)]
      else ps) []
  | none => []

/-- One step of convertMessages: process one OpenAI message against the
accumulated (contents, systemInstruction) pair. -/
def convertOneOA (env : ConvEnv) (ctx : SigContext) (enableThinking : Bool)
    (acc : List GContent × Option GContent) (msg : OAMessage) :
    List GContent × Option GContent :=
  if msg.role = "system" then
    let extracted := extractContent msg.content
    let si := acc.2.getD ⟨"user", []⟩
    let si := { si with parts := si.parts ++ extractedParts extracted }
    (acc.1, some si)
  else if msg.role = "user" then
    (acc.1 ++ [⟨"user", extractedParts (extractContent msg.content)⟩], acc.2)
  else if msg.role = "assistant" then
    let parts := oaThinkParts ctx enableThinking msg.reasoning_content ++
      oaContentParts msg.content ++ oaToolParts env ctx msg.tool_calls
    if parts.isEmpty then acc else (acc.1 ++ [⟨"model", parts⟩], acc.2)
  else if msg.role = "tool" then
    let toolCallId := msg.tool_call_id
    let functionName0 : Option String :=
      if jsTruthyStr msg.name then msg.name else some ""
    let functionName :=
      if ¬ jsTruthyStr functionName0 ∧ jsTruthyStr toolCallId then
        searchToolName toolCallId acc.1.reverse functionName0
      else functionName0
    let frPart : GPart :=
      { functionResponse := some
          ⟨toolCallId, some (env.sanitizeName functionName),
            if jsTruthyContent msg.content then msg.content.getD (OAContent.str "")
            else OAContent.str ""⟩ }
    (pushFunctionResponse acc.1 frPart, acc.2)
  else acc

/-- convertMessages: fold the OpenAI messages into Gemini contents and
an optional systemInstruction, against the resolved signature context. -/
def convertMessages (env : ConvEnv) (messages : List OAMessage) (enableThinking : Bool)
    (actualModelName : String) (hasTools : Bool) : List GContent × Option GContent :=
  let ctx := msgSigContext env enableThinking actualModelName hasTools
  messages.foldl (convertOneOA env ctx enableThinking) ([], none)

/-- One item of a Claude tool_result content array. -/
structure ClaudeTRCItem where
  type : String := ""
  text : Option String := none

/-- A Claude tool_result content: a string, an array of typed items, or
anything else (which yields an empty output). -/
inductive ClaudeTRC where
  | str (s : String)
  | arr (items : List ClaudeTRCItem)
  | other

/-- One item of a Claude content array.  `other` stands for items of
any other type, ignored by every branch. -/
inductive ClaudeContentItem where
  | text (t : Option String)
  | image (sourceType : Option String) (mediaType : Option String) (data : Option String)
  | thinking (thinking : Option String) (signature : Option String)
  | tool_use (id : Option String) (name : Option String) (input : Option JValue)
      (signature : Option String)
  | tool_result (tool_use_id : Option String) (content : Option ClaudeTRC)
  | other

/-- A Claude message content. -/
inductive ClaudeContent where
  | str (s : String)
  | arr (items : List ClaudeContentItem)
  | other

/-- A Claude message. -/
structure ClaudeMessage where
  role : String
  content : Option ClaudeContent := none

/-- extractClaudeContent: text items accumulate, base64 images with
truthy data become inlineData parts (media_type falling back to
image/png), everything else is skipped. -/
def extractClaudeContent (content : Option ClaudeContent) : String × List GPart :=
  match content with
  | some (ClaudeContent.str s) => (s, [])
  | some (ClaudeContent.arr items) =>
    items.foldl (fun acc item =>
      match item with
      | ClaudeContentItem.text t => (acc.1 ++ t.getD "", acc.2)
      | ClaudeContentItem.image st mt d =>
        if st = some "base64" ∧ jsTruthyStr d then
          (acc.1, acc.2 ++
            [{ inlineData := some ⟨if jsTruthyStr mt then mt.getD "" else "image/png",
                d.getD ""⟩ }])
        else acc
      | _ => acc) ("", [])
  | _ => ("", [])

/-- Does a content array hold a tool_result item? -/
def hasToolResult (items : List ClaudeContentItem) : Bool :=
  items.any (fun item =>
    match item with
    | ClaudeContentItem.tool_result _ _ => true
    | _ => false)

/-- The output string of a tool_result item: the string content, or the
concatenated text of the text-typed items of an array (Array.join turns
an undefined text into the empty string), or empty. -/
def toolResultOutput (content : Option ClaudeTRC) : String :=
  match content with
  | some (ClaudeTRC.str s) => s
  | some (ClaudeTRC.arr items) =>
    String.join (((items.filter (fun c => c.type == "text"))).map (fun c => c.text.getD ""))
  | _ => ""

/-- One tool_result item of a Claude user message: look up the function
name from the built contents, build the functionResponse part, merge it
into the contents. -/
def convertOneToolResult (contents : List GContent) (toolUseId : Option String)
    (content : Option ClaudeTRC) : List GContent :=
  let functionName := searchToolName toolUseId contents.reverse (some "")
  let frPart : GPart :=
    { functionResponse := some
        ⟨toolUseId, functionName, OAContent.str (toolResultOutput content)⟩ }
  pushFunctionResponse contents frPart

/-- The accumulator of the Claude assistant content scan:
(thinkingContent, messageSignature, toolCalls, textContent). -/
structure ClaudeScan where
  thinkingContent : String := ""
  messageSignature : Option String := none
  toolCalls : List GPart := []
  textContent : String := ""

/-- One item of the Claude assistant content scan. -/
def scanClaudeItem (env : ConvEnv) (ctx : SigContext) (acc : ClaudeScan)
    (item : ClaudeContentItem) : ClaudeScan :=
  match item with
  | ClaudeContentItem.text t => { acc with textContent := acc.textContent ++ t.getD "" }
  | ClaudeContentItem.thinking th sig =>
    { acc with
      thinkingContent :=
        if jsTruthyStr th then acc.thinkingContent ++ th.getD "" else acc.thinkingContent,
      messageSignature :=
        if ¬ jsTruthyStr acc.messageSignature ∧ jsTruthyStr sig then sig
        else acc.messageSignature }
  | ClaudeContentItem.tool_use id nm input sig =>
    let safeName := env.processName nm
    let signature :=
      (jsOr sig (jsOr ctx.toolSignature
        (jsOr ctx.reasoningSignature (some SKIP_THOUGHT_SIGNATURE_VALIDATOR)))).getD
        SKIP_THOUGHT_SIGNATURE_VALIDATOR
    let args : Option JValue :=
      some (if jTruthy input then input.getD (JValue.obj []) else JValue.obj [])
    { acc with toolCalls := acc.toolCalls ++ [createFunctionCallPart id safeName args signature] }
  | _ => acc

/-- JS String.prototype.trim over the character list. -/
def trimChars (l : List Char) : List Char :=
  ((l.dropWhile Char.isWhitespace).reverse.dropWhile Char.isWhitespace).reverse

/-- JS String.prototype.trimEnd over the character list. -/
def trimEndChars (l : List Char) : List Char :=
  (l.reverse.dropWhile Char.isWhitespace).reverse

/-- The thought part of a Claude assistant message: the accumulated
thinking content (or the cached thought content) under the
message-then-reasoning-then-tool signature, only when thinking is
enabled and the signature is truthy. -/
def claudeThinkParts (ctx : SigContext) (enableThinking : Bool) (scan : ClaudeScan) :
    List GPart :=
  if enableThinking then
    let signature := jsOr scan.messageSignature (jsOr ctx.reasoningSignature ctx.toolSignature)
    if jsTruthyStr signature then
      let reasoningText :=
        if scan.thinkingContent.length > 0 then scan.thinkingContent
        else if signature = ctx.reasoningSignature then
          (if jsTruthyStr ctx.reasoningContent then ctx.reasoningContent.getD "" else " ")
        else if signature = ctx.toolSignature then
          (if jsTruthyStr ctx.toolContent then ctx.toolContent.getD "" else " ")
        else " "
      [createThoughtPart reasoningText (signature.getD "")]
    else []
  else []

/-- The text part of a Claude assistant message: the accumulated text,
trimmed at the end, only when it is nonempty after a trim. -/
def claudeTextParts (scan : ClaudeScan) : List GPart :=
  if scan.textContent ≠ "" ∧ trimChars scan.textContent.toList ≠ [] then
    [{ text := some (trimEndChars scan.textContent.toList).asString }]
  else []

/-- One step of convertClaudeMessages: process one Claude message
against the accumulated contents. -/
def convertOneClaude (env : ConvEnv) (ctx : SigContext) (enableThinking : Bool)
    (contents : List GContent) (msg : ClaudeMessage) : List GContent :=
  if msg.role = "user" then
    match msg.content with
    | some (ClaudeContent.arr items) =>
      if hasToolResult items then
        items.foldl (fun cs item =>
          match item with
          | ClaudeContentItem.tool_result toolUseId content =>
            convertOneToolResult cs toolUseId content
          | _ => cs) contents
      else contents ++ [⟨"user", extractedParts (extractClaudeContent msg.content)⟩]
    | other => contents ++ [⟨"user", extractedParts (extractClaudeContent other)⟩]
  else if msg.role = "assistant" then
    let scan : ClaudeScan :=
      match msg.content with
      | some (ClaudeContent.str s) => { textContent := s }
      | some (ClaudeContent.arr items) => items.foldl (scanClaudeItem env ctx) {}
      | _ => {}
    let parts := claudeThinkParts ctx enableThinking scan ++ claudeTextParts scan ++
      scan.toolCalls
    if parts.isEmpty then contents else contents ++ [⟨"model", parts⟩]
  else contents

/-- convertClaudeMessages: fold the Claude messages into Gemini
contents against the resolved signature context. -/
def convertClaudeMessages (env : ConvEnv) (messages : List ClaudeMessage)
    (enableThinking : Bool) (actualModelName : String) (hasTools : Bool) : List GContent :=
  let ctx := msgSigContext env enableThinking actualModelName hasTools
  messages.foldl (convertOneClaude env ctx enableThinking) []

/-- A part carrying a signature and nothing else (no thought flag, no
functionCall, no functionResponse, no text, no inlineData). -/
def isStandaloneSignaturePart (p : GPart) : Bool :=
  jsTruthyStr p.thoughtSignature && ! jsTruthyBool p.thought && p.functionCall.isNone &&
    p.functionResponse.isNone && ! jsTruthyStr p.text && p.inlineData.isNone

/-- The index of the last element satisfying the predicate, as computed
by the forward scan of processGeminiModelThoughts. -/
def lastIdxWhere (q : GPart → Bool) (parts : List GPart) : Option Nat :=
  (List.range parts.length).foldl (fun acc i =>
    match parts.get? i with
    | some p => if q p then some i else acc
    | none => acc) none

/-- Overwrite the thoughtSignature of the part at an index. -/
def setSigAt (sig : Option String) : List GPart → Nat → List GPart
  | [], _ => []
  | p :: rest, 0 => { p with thoughtSignature := sig } :: rest
  | p :: rest, n + 1 => p :: setSigAt sig rest n

/-- The predicate of the thought-index scan: a thought part (thought
strictly true) without a truthy signature. -/
def isBareThoughtPart (p : GPart) : Bool :=
  decide (p.thought = some true) && ! jsTruthyStr p.thoughtSignature

/-- The merge step of processGeminiModelThoughts: pair the last bare
thought part with the last standalone signature part (taking its
signature and removing it), or give the bare thought the fallback
signature, or prepend a fresh thought part when there is no bare
thought and a fallback signature exists. -/
def mergeThoughtPhase (fallbackSig : Option String) (fallbackContent : String)
    (parts : List GPart) : List GPart :=
  match lastIdxWhere isBareThoughtPart parts, lastIdxWhere isStandaloneSignaturePart parts with
  | some ti, some si =>
    let sv := (parts.get? si).bind (fun p => p.thoughtSignature)
    (setSigAt sv parts ti).eraseIdx si
  | some ti, none =>
    if jsTruthyStr fallbackSig then setSigAt fallbackSig parts ti else parts
  | none, _ =>
    if jsTruthyStr fallbackSig then createThoughtPart fallbackContent (fallbackSig.getD "") :: parts
    else parts

/-- The signatures of the standalone signature parts, in part order. -/
def standaloneSigs (parts : List GPart) : List (Option String) :=
  (parts.filter isStandaloneSignaturePart).map (fun p => p.thoughtSignature)

/-- The assignment pass: every part lacking a truthy signature that
carries a functionCall or inlineData takes the next unused standalone
signature, or else the per-kind fallback (tool-then-reasoning for
functionCall, reasoning-then-tool for inlineData) when truthy.  Returns
the rewritten parts and the number of standalone signatures consumed. -/
def assignSigs (ts rs : Option String) : List (Option String) → List GPart →
    List GPart × Nat
  | _, [] => ([], 0)
  | stand, p :: rest =>
    if ¬ jsTruthyStr p.thoughtSignature ∧ (p.functionCall.isSome ∨ p.inlineData.isSome) then
      match stand with
      | s :: stand' =>
        let r := assignSigs ts rs stand' rest
        ({ p with thoughtSignature := s } :: r.1, r.2 + 1)
      | [] =>
        let pf := if p.functionCall.isSome then jsOr ts rs else jsOr rs ts
        let p' := if jsTruthyStr pf then { p with thoughtSignature := pf } else p
        let r := assignSigs ts rs [] rest
        (p' :: r.1, r.2)
    else
      let r := assignSigs ts rs stand rest
      (p :: r.1, r.2)

/-- The removal pass: drop the first `used` standalone signature parts
(their signatures were consumed by the assignment pass). -/
def removeUsedStandalone : Nat → List GPart → List GPart
  | _, [] => []
  | used, p :: rest =>
    if isStandaloneSignaturePart p then
      if used = 0 then p :: removeUsedStandalone 0 rest
      else removeUsedStandalone (used - 1) rest
    else p :: removeUsedStandalone used rest

/-- processGeminiModelThoughts: with thinking disabled, only auto-sign
unsigned inlineData parts (when a fallback signature exists); with
thinking enabled, merge thought and standalone signature parts, then
assign signatures to unsigned functionCall / inlineData parts and drop
the consumed standalone parts. -/
def processGeminiModelThoughts (rs rc ts tc : Option String) (enableThinking : Bool)
    (parts : List GPart) : List GPart :=
  let fallbackSig := jsOr rs ts
  let fallbackContent :=
    if fallbackSig = rs then (if jsTruthyStr rc then rc.getD "" else " ")
    else (if jsTruthyStr tc then tc.getD "" else " ")
  if ¬ enableThinking then
    if ¬ jsTruthyStr fallbackSig then parts
    else parts.map (fun p =>
      if p.inlineData.isSome ∧ ¬ jsTruthyStr p.thoughtSignature then
        { p with thoughtSignature := fallbackSig }
      else p)
  else
    let merged := mergeThoughtPhase fallbackSig fallbackContent parts
    let assigned := assignSigs ts rs (standaloneSigs merged) merged
    removeUsedStandalone assigned.2 assigned.1

/-- The feature flags convertGeminiToGeminiCli extracts from the model
name. -/
structure ModelFeatures where
  fakeStreaming : Bool
  antiTruncation : Bool
  maxThinking : Bool
  noThinking : Bool
  search : Bool

def extractFeatures (modelName : String) : ModelFeatures :=
  ⟨isFakeStreamingModel modelName, isAntiTruncationModel modelName,
    isMaxThinkingModel modelName, isNoThinkingModel modelName, isSearchModel modelName⟩

/-- The enableThinking decision: -nothinking wins, then -maxthinking,
then the isEnableThinking oracle on the actual model name. -/
def computeEnableThinking (thinkingFor : String → Bool) (features : ModelFeatures)
    (actualModelName : String) : Bool :=
  if features.noThinking then false
  else if features.maxThinking then true
  else thinkingFor actualModelName

/-- The result of the contents/thinking portion of
convertGeminiToGeminiCli. -/
structure GeminiCliConversion where
  contents : List GContent
  model : String
  features : ModelFeatures
  enableThinking : Bool

/-- The contents/thinking portion of convertGeminiToGeminiCli: extract
features, derive the actual model name and the thinking mode, and - only
when thinking is enabled - resolve the signature context and process the
parts of every model content.  Tool conversion, generationConfig
normalization and the system instruction do not touch contents and are
out of scope; hasTools is the request.tools nonemptiness check. -/
def convertGeminiToGeminiCli (env : ConvEnv) (modelName : String)
    (contents : List GContent) (hasTools : Bool) : GeminiCliConversion :=
  let features := extractFeatures modelName
  let actualModelName := getActualApiModelName modelName
  let enableThinking := computeEnableThinking env.thinkingFor features actualModelName
  let contents2 :=
    if enableThinking then
      let ctx := getGeminiCliSignatureContext env.cache env.hardThought env.hardTool
        actualModelName hasTools
      contents.map (fun c =>
        if c.role = "model" then
          let newParts := processGeminiModelThoughts ctx.reasoningSignature
            ctx.reasoningContent ctx.toolSignature ctx.toolContent enableThinking c.parts
          { c with parts := newParts }
        else c)
    else contents
  ⟨contents2, actualModelName, features, enableThinking⟩

/-- Every functionCall part of every content carries the given
signature. -/
def fcSigned (sig : String) (contents : List GContent) : Prop :=
  ∀ c ∈ contents, ∀ p ∈ c.parts, p.functionCall.isSome = true →
    p.thoughtSignature = some sig

/-- No tool_use item of the message list carries a truthy signature of
its own. -/
def claudeMsgNoOwnSig (msg : ClaudeMessage) : Bool :=
  match msg.content with
  | some (ClaudeContent.arr items) =>
    items.all (fun item =>
      match item with
      | ClaudeContentItem.tool_use _ _ _ sig => ! jsTruthyStr sig
      | _ => true)
  | _ => true

def claudeNoOwnSig (messages : List ClaudeMessage) : Bool :=
  messages.all claudeMsgNoOwnSig

/-- The concrete inputs of the C4 witness: an empty cache, no hardcoded
defaults, and one assistant message carrying one function tool call. -/
def wC4Env : ConvEnv :=
  ⟨⟨[]⟩, fun _ => none, fun _ => none, fun _ => false,
    fun n => n.getD "", fun n => n.getD "", fun _ => none⟩

def wC4Fn : OAToolCallFunction := { name := some "get_weather", arguments := none }

def wC4ToolCall : OAToolCall := ⟨"function", some "call_1", wC4Fn⟩

def wC4Msg : OAMessage := { role := "assistant", tool_calls := some [wC4ToolCall] }

def wC4Part : GPart :=
  createFunctionCallPart (some "call_1") "get_weather" none SKIP_THOUGHT_SIGNATURE_VALIDATOR

/-- The concrete inputs of the C4 counterexample: a cached tool-bucket
signature T for gemini-2.5-pro, and one Gemini-dialect model content
with one unsigned functionCall part, sent for the -nothinking variant
of the model. -/
def cexC4Env : ConvEnv :=
  ⟨⟨[⟨"gemini-2.5-pro", true, "T", "tool thought"⟩]⟩, fun _ => none, fun _ => none,
    fun _ => true, fun n => n.getD "", fun n => n.getD "", fun _ => none⟩

def cexC4Part : GPart := { functionCall := some ⟨some "call_1", some "f", none⟩ }

def cexC4Contents : List GContent := [⟨"model", [cexC4Part]⟩]

/-! ### C6: shape of the Claude-dialect stream

Embedding of the claude branch of createGeminiCliStreamWriter
(src/unnamed/part_005 lines 75-128 and 177-185) over the
ClaudeStreamState of src/unnamed/part_004: onEvent is a state
transition emitting Claude events, finalize flushes the tail.  The
emitted stream is checked against a block grammar. -/

/-- The usage payload (the fields the writers read). -/
structure UsageData where
  prompt_tokens : Nat := 0
  completion_tokens : Nat := 0
  total_tokens : Nat := 0
deriving DecidableEq, Repr

/-- One upstream tool call as the writers see it (id, function.name,
function.arguments). -/
structure WToolCall where
  id : Option String := none
  name : Option String := none
  args : Option String := none
deriving DecidableEq, Repr

/-- A neutral upstream stream event fed to onEvent: a usage event, a
reasoning event (with optional thoughtSignature), a tool_calls event,
any other data object (whose content field is written only when
truthy), or a falsy data value (ignored). -/
inductive NEvent where
  | usage (u : UsageData)
  | reasoning (rc : Option String) (sig : Option String)
  | tool_calls (tcs : Option (List WToolCall))
  | content (c : Option String)
  | nullEvent
deriving DecidableEq, Repr

/-- The Claude SSE events the writer emits. -/
inductive CEvent where
  | message_start
  | block_start_thinking (sig : Option String) (index : Nat)
  | block_start_text (index : Nat)
  | block_start_tool_use (id : Option String) (name : Option String) (index : Nat)
  | block_delta_thinking (s : Option String) (index : Nat)
  | block_delta_text (s : Option String) (index : Nat)
  | block_delta_input (s : Option String) (index : Nat)
  | block_stop (index : Nat)
  | message_delta (stopReason : String) (outputTokens : Nat)
  | message_stop
deriving DecidableEq, Repr

/-- The writer state: ClaudeStreamState plus the hasToolCall /
usageData / claudeThinkingSignature closure variables. -/
structure CWState where
  blockIndex : Nat := 0
  hasStarted : Bool := false
  hasThinkingBlock : Bool := false
  hasTextBlock : Bool := false
  hasToolCall : Bool := false
  usageData : Option UsageData := none
  claudeThinkingSignature : Option String := none
deriving DecidableEq, Repr

/-- The hasStarted guard at the top of the claude branch: emit
message_start once. -/
def startGuard (s : CWState) : CWState × List CEvent :=
  if s.hasStarted then (s, []) else ({ s with hasStarted := true }, [CEvent.message_start])

/-- One iteration of the tool_calls loop: a
start/input-delta/stop triplet at the current block index, which only
createBlockStop advances. -/
def toolStep (acc : CWState × List CEvent) (tc : WToolCall) : CWState × List CEvent :=
  (({ acc.1 with blockIndex := acc.1.blockIndex + 1 } : CWState),
    acc.2 ++ [CEvent.block_start_tool_use tc.id tc.name acc.1.blockIndex,
      CEvent.block_delta_input tc.args acc.1.blockIndex,
      CEvent.block_stop acc.1.blockIndex])

/-- The repeated close snippet: stop the thinking block when it is
open and no text block is (lines 97-100 and 117-120 of the source). -/
def closeThinkingIfNoText (s : CWState) : CWState × List CEvent :=
  if s.hasThinkingBlock ∧ ¬ s.hasTextBlock then
    (({ s with blockIndex := s.blockIndex + 1, hasThinkingBlock := false } : CWState),
      [CEvent.block_stop s.blockIndex])
  else (s, [])

/-- The close snippet of the tool branch: stop the text block when it
is open. -/
def closeText (s : CWState) : CWState × List CEvent :=
  if s.hasTextBlock then
    (({ s with blockIndex := s.blockIndex + 1, hasTextBlock := false } : CWState),
      [CEvent.block_stop s.blockIndex])
  else (s, ([] : List CEvent))

/-- The per-type dispatch of the claude branch, after the hasStarted
guard has run. -/
def claudeOnStarted (s : CWState) (e : NEvent) : CWState × List CEvent :=
  match e with
  | NEvent.nullEvent => (s, [])
  | NEvent.usage u => ({ s with usageData := some u }, [])
  | NEvent.reasoning rc sig =>
    if ¬ s.hasThinkingBlock then
      let cts := if jsTruthyStr sig then sig else none
      ({ s with claudeThinkingSignature := cts, hasThinkingBlock := true },
        [CEvent.block_start_thinking cts s.blockIndex,
          CEvent.block_delta_thinking rc s.blockIndex])
    else
      (s, [CEvent.block_delta_thinking rc s.blockIndex])
  | NEvent.tool_calls otcs =>
    let s2 := { s with hasToolCall := true }
    let r3 := closeThinkingIfNoText s2
    let r4 := closeText r3.1
    let r5 := (otcs.getD []).foldl toolStep (r4.1, ([] : List CEvent))
    (r5.1, r3.2 ++ r4.2 ++ r5.2)
  | NEvent.content c =>
    if jsTruthyStr c then
      let r3 := closeThinkingIfNoText s
      let r4 :=
        if ¬ r3.1.hasTextBlock then
          (({ r3.1 with hasTextBlock := true } : CWState),
            [CEvent.block_start_text r3.1.blockIndex])
        else (r3.1, ([] : List CEvent))
      (r4.1, r3.2 ++ r4.2 ++ [CEvent.block_delta_text c r4.1.blockIndex])
    else (s, [])

/-- One onEvent call of the claude branch: a falsy data value returns
immediately; otherwise the hasStarted guard runs, then the per-type
dispatch. -/
def claudeOnEvent (s : CWState) (e : NEvent) : CWState × List CEvent :=
  match e with
  | NEvent.nullEvent => (s, [])
  | _ =>
    let r := startGuard s
    let r2 := claudeOnStarted r.1 e
    (r2.1, r.2 ++ r2.2)

/-- The finalize call of the claude branch: one block_stop when a text
or thinking block is open, then message_delta with the stop reason and
output tokens, then message_stop. -/
def claudeFinalize (s : CWState) : List CEvent :=
  (if s.hasTextBlock || s.hasThinkingBlock then [CEvent.block_stop s.blockIndex] else []) ++
  [CEvent.message_delta (if s.hasToolCall then "tool_use" else "end_turn")
    ((s.usageData.map (fun u => u.completion_tokens)).getD 0),
    CEvent.message_stop]

/-- Run onEvent over a list of upstream events, collecting the emitted
Claude events. -/
def runEvents (s : CWState) : List NEvent → CWState × List CEvent
  | [] => (s, [])
  | e :: rest =>
    let r := claudeOnEvent s e
    let r2 := runEvents r.1 rest
    (r2.1, r.2 ++ r2.2)

/-- The full writer run: every onEvent, then finalize. -/
def runClaudeWriter (events : List NEvent) : List CEvent :=
  let r := runEvents {} events
  r.2 ++ claudeFinalize r.1

/-- The kind of an open content block. -/
inductive BlockKind where
  | thinking
  | text
  | tool
deriving DecidableEq, Repr

/-- The states of the stream-shape checker. -/
inductive ChkState where
  | start
  | top
  | inBlock (kind : BlockKind) (index : Nat)
  | afterDelta
  | done
  | reject
deriving DecidableEq, Repr

/-- The stream-shape checker: message_start first; then content blocks,
each opened once, fed only deltas of its own kind and index, and closed
by a block_stop of the same index before anything else opens (so at
most one block - in particular at most one of thinking/text - is ever
open); then message_delta and message_stop. -/
def chkStep : ChkState → CEvent → ChkState
  | ChkState.start, CEvent.message_start => ChkState.top
  | ChkState.top, CEvent.block_start_thinking _ i => ChkState.inBlock BlockKind.thinking i
  | ChkState.top, CEvent.block_start_text i => ChkState.inBlock BlockKind.text i
  | ChkState.top, CEvent.block_start_tool_use _ _ i => ChkState.inBlock BlockKind.tool i
  | ChkState.top, CEvent.message_delta _ _ => ChkState.afterDelta
  | ChkState.inBlock k i, CEvent.block_delta_thinking _ j =>
    if k = BlockKind.thinking ∧ i = j then ChkState.inBlock k i else ChkState.reject
  | ChkState.inBlock k i, CEvent.block_delta_text _ j =>
    if k = BlockKind.text ∧ i = j then ChkState.inBlock k i else ChkState.reject
  | ChkState.inBlock k i, CEvent.block_delta_input _ j =>
    if k = BlockKind.tool ∧ i = j then ChkState.inBlock k i else ChkState.reject
  | ChkState.inBlock _ i, CEvent.block_stop j =>
    if i = j then ChkState.top else ChkState.reject
  | ChkState.afterDelta, CEvent.message_stop => ChkState.done
  | _, _ => ChkState.reject

def chkRun (q : ChkState) (evs : List CEvent) : ChkState := evs.foldl chkStep q

/-- A well-shaped Claude stream per the checker. -/
def acceptsClaude (evs : List CEvent) : Bool :=
  decide (chkRun ChkState.start evs = ChkState.done)

/-- The checker state a writer state corresponds to. -/
def absState (s : CWState) : ChkState :=
  if ¬ s.hasStarted then ChkState.start
  else if s.hasThinkingBlock then ChkState.inBlock BlockKind.thinking s.blockIndex
  else if s.hasTextBlock then ChkState.inBlock BlockKind.text s.blockIndex
  else ChkState.top

/-- An event a falsy data value does not model. -/
def isRealEvent (e : NEvent) : Bool :=
  match e with
  | NEvent.nullEvent => false
  | _ => true

/-- The content-seen flag after an event. -/
def sawCAfter (sawC : Bool) (e : NEvent) : Bool :=
  match e with
  | NEvent.content c => sawC || jsTruthyStr c
  | _ => sawC

/-- No reasoning event occurs at or after the content-seen flag: the
event order every upstream transcript of this proxy follows (thinking
precedes text). -/
def reasoningSafeFrom : Bool → List NEvent → Bool
  | _, [] => true
  | sawC, e :: rest =>
    match e with
    | NEvent.reasoning _ _ => !sawC && reasoningSafeFrom sawC rest
    | _ => reasoningSafeFrom (sawCAfter sawC e) rest

def reasoningSafe (events : List NEvent) : Bool := reasoningSafeFrom false events

/-- The writer-state invariant: thinking and text are never both open,
nothing is open before the stream starts, and a text block implies the
content-seen flag. -/
def WOk (sawC : Bool) (s : CWState) : Prop :=
  (s.hasThinkingBlock = true → s.hasTextBlock = false) ∧
  (s.hasStarted = false → s.hasThinkingBlock = false ∧ s.hasTextBlock = false) ∧
  (s.hasTextBlock = true → sawC = true)

/-- The concrete inputs of the C6 witness: reasoning, then content,
then usage. -/
def wC6Events : List NEvent :=
  [NEvent.reasoning (some "deep thought") (some "sig"),
    NEvent.content (some "hello"), NEvent.usage ⟨3, 5, 8⟩]

/-- The C6 counterexample transcript: a content event, then a reasoning
event. -/
def cexC6Events : List NEvent :=
  [NEvent.content (some "a"), NEvent.reasoning (some "r") none]

/-! ### C7: the CLI fake-stream path

Embeddings of buildApiUrl (src/unnamed/part_002 lines 58-64), the
branch selection of handleGeminiCliRequest
(src/src/server/handlers/geminicli.js lines 69-153),
createOpenAIStreamChunk (src/unnamed/part_006, formatters/openai.js,
lines 118-127) and the OpenAI branch of
writeGeminiCliFakeStreamResponse (src/unnamed/part_005 lines 294-316).
Only server/stream.js is not among the sources at hand; its three
touchpoints are modelled from the spec: getChunkObject hands
createOpenAIStreamChunk a pooled chunk whose choices array holds one
entry with index 0, writeStreamData emits one data: frame per chunk,
and endStream emits the data: [DONE] terminator and ends the
response. -/

/-- buildApiUrl: the configured URL when present, else the v1internal
defaults; the stream flag picks the SSE streamGenerateContent endpoint
against the plain generateContent one. -/
def buildApiUrl (cfgUrl cfgNoStreamUrl : Option String) (stream : Bool) : String :=
  if stream then
    (jsOr cfgUrl
      (some "https://cloudcode-pa.googleapis.com/v1internal:streamGenerateContent?alt=sse")).getD ""
  else
    (jsOr cfgNoStreamUrl
      (some "https://cloudcode-pa.googleapis.com/v1internal:generateContent")).getD ""

/-- The fake-streaming decision of the handler: the model carries the
fake-streaming prefix and the client asked for streaming. -/
def useFakeStreaming (modelName : String) (stream : Bool) : Bool :=
  isFakeStreamingModel modelName && stream

/-- Whether the upstream call of the chat branch the handler takes is
the streaming one: the true-stream branch calls generateStreamResponse
(buildApiUrl true); both the fake-streaming and the non-stream branch
call generateNoStreamResponse (buildApiUrl false). -/
def cliUpstreamStream (modelName : String) (stream : Bool) : Bool :=
  stream && ! useFakeStreaming modelName stream

/-- The delta objects the writers of src/unnamed/part_005 pass to
createOpenAIStreamChunk: a role delta, a content delta, a
reasoning_content delta, an indexed tool_calls delta, or the empty
object of the final chunk. -/
inductive OAIDelta where
  | roleDelta (role : String)
  | contentDelta (content : Option String)
  | reasoningDelta (rc : Option String)
  | toolCallsDelta (tcs : List (Nat × WToolCall))
  | emptyDelta
deriving DecidableEq, Repr

/-- One entry of the choices array of an OpenAI stream chunk. -/
structure OAIChoice where
  index : Nat := 0
  delta : OAIDelta
  finish_reason : Option String := none
deriving DecidableEq, Repr

/-- An OpenAI stream chunk, shaped as createOpenAIStreamChunk
(src/unnamed/part_006) fills it: id, object, created, model and the
choices array; the usage field joins only by the spread of the final
fake-stream chunk. -/
structure OAIChunk where
  id : String
  object : String := "chat.completion.chunk"
  created : Nat
  model : String
  choices : List OAIChoice := []
  usage : Option UsageData := none
deriving DecidableEq, Repr

/-- Embedding of createOpenAIStreamChunk (src/unnamed/part_006 lines
118-127): set id, object chat.completion.chunk, created and model, and
put the delta and finish_reason into choices[0].  The pooled object
getChunkObject returns (server/stream.js, not among the sources at
hand) is modelled from the spec as a fresh chunk whose choices array
holds one entry with index 0 and whose usage field is absent. -/
def createOpenAIStreamChunk (id : String) (created : Nat) (model : String)
    (delta : OAIDelta) (finish_reason : Option String) : OAIChunk :=
  { id := id, object := "chat.completion.chunk", created := created, model := model,
    choices := [{ index := 0, delta := delta, finish_reason := finish_reason }] }

/-- Modelled from the spec: one SSE frame - a data: frame carrying a
chunk, or the data: [DONE] terminator endStream writes. -/
inductive SSEFrame where
  | data (chunk : OAIChunk)
  | done
deriving DecidableEq, Repr

/-- The truthiness-and-length guard `toolCalls && toolCalls.length > 0`. -/
def truthyToolCalls (otcs : Option (List WToolCall)) : Bool :=
  match otcs with
  | some l => decide (0 < l.length)
  | none => false

/-- The OpenAI branch of writeGeminiCliFakeStreamResponse: a
reasoning_content delta when truthy, an indexed tool_calls delta when
nonempty, a content delta when truthy, then the final chunk carrying
finish_reason (tool_calls when tool calls exist, stop otherwise) and
the usage verbatim. -/
def writeFakeStreamOpenAI (id : String) (created : Nat) (responseModel : String)
    (content reasoningContent : Option String) (toolCalls : Option (List WToolCall))
    (usage : Option UsageData) : List OAIChunk :=
  (if jsTruthyStr reasoningContent then
    [createOpenAIStreamChunk id created responseModel
      (OAIDelta.reasoningDelta reasoningContent) none]
  else []) ++
  (if truthyToolCalls toolCalls then
    [createOpenAIStreamChunk id created responseModel
      (OAIDelta.toolCallsDelta ((toolCalls.getD []).enum)) none]
  else []) ++
  (if jsTruthyStr content then
    [createOpenAIStreamChunk id created responseModel (OAIDelta.contentDelta content) none]
  else []) ++
  [{ createOpenAIStreamChunk id created responseModel OAIDelta.emptyDelta
      (some (if truthyToolCalls toolCalls then "tool_calls" else "stop")) with
      usage := usage }]

/-- The collected result of generateNoStreamResponse. -/
structure NoStreamResult where
  content : Option String := none
  reasoningContent : Option String := none
  reasoningSignature : Option String := none
  toolCalls : Option (List WToolCall) := none
  usage : Option UsageData := none

/-- The fake-streaming branch of handleGeminiCliRequest for the OpenAI
format: write the fake stream frames from the collected non-stream
result, then endStream. -/
def handleCliFakeStream (id : String) (created : Nat) (responseModel : String)
    (result : NoStreamResult) : List SSEFrame :=
  (writeFakeStreamOpenAI id created responseModel result.content result.reasoningContent
    result.toolCalls result.usage).map SSEFrame.data ++ [SSEFrame.done]

/-- The content chunk the S5 scenario expects: one choice whose delta
carries content A, no finish_reason, no usage. -/
def s5ContentChunk : OAIChunk :=
  { id := "chatcmpl-1", object := "chat.completion.chunk", created := 123,
    model := "假流式/gemini-2.5-pro",
    choices := [{ index := 0, delta := OAIDelta.contentDelta (some "A"),
                  finish_reason := none }] }

/-- The final chunk the S5 scenario expects: finish_reason stop and the
usage. -/
def s5FinalChunk : OAIChunk :=
  { id := "chatcmpl-1", object := "chat.completion.chunk", created := 123,
    model := "假流式/gemini-2.5-pro",
    choices := [{ index := 0, delta := OAIDelta.emptyDelta, finish_reason := some "stop" }],
    usage := some ⟨3, 5, 8⟩ }

/-! ## Theorems -/

theorem retryLoop_spec {α : Type} (outcomes : Nat → CallOutcome α) (retries : Nat) :
    ∀ fuel attempt, attempt ≤ retries → retries - attempt ≤ fuel →
      (attempt + 1 ≤ (retryLoop outcomes retries attempt).2) ∧
      ((retryLoop outcomes retries attempt).2 ≤ retries + 1) ∧
      ((retryLoop outcomes retries attempt).1 =
        outcomes ((retryLoop outcomes retries attempt).2 - 1)) ∧
      (∀ j, attempt ≤ j → j + 1 < (retryLoop outcomes retries attempt).2 →
        outcomes j = .err (some 429) ∧ j < retries) ∧
      ((retryLoop outcomes retries attempt).1 = .err (some 429) →
        (retryLoop outcomes retries attempt).2 = retries + 1) := by
  intro fuel
  induction fuel with
  | zero =>
    intro attempt hat hle
    have hra : attempt = retries := by omega
    rw [retryLoop]
    cases houtcome : outcomes attempt with
    | ok v =>
      dsimp only
      refine ⟨le_refl _, by omega, ?_, ?_, ?_⟩
      · simpa using houtcome.symm
      · intro j hj hj2; omega
      · intro hcontra; simp at hcontra
    | err s =>
      have hnot : ¬ (s = some 429 ∧ attempt < retries) := by
        rintro ⟨-, hlt⟩; omega
      dsimp only
      rw [dif_neg hnot]
      refine ⟨le_refl _, by omega, ?_, ?_, ?_⟩
      · simpa using houtcome.symm
      · intro j hj hj2; omega
      · intro _; omega
  | succ n ih =>
    intro attempt hat hle
    rw [retryLoop]
    cases houtcome : outcomes attempt with
    | ok v =>
      dsimp only
      refine ⟨le_refl _, by omega, ?_, ?_, ?_⟩
      · simpa using houtcome.symm
      · intro j hj hj2; omega
      · intro hcontra; simp at hcontra
    | err s =>
      dsimp only
      by_cases hcond : s = some 429 ∧ attempt < retries
      · rw [dif_pos hcond]
        obtain ⟨hs, hlt⟩ := hcond
        obtain ⟨h1, h2, h3, h4, h5⟩ := ih (attempt + 1) (by omega) (by omega)
        refine ⟨by omega, h2, h3, ?_, h5⟩
        intro j hj hj2
        rcases Nat.eq_or_lt_of_le hj with heq | hlt2
        · subst heq; subst hs; exact ⟨houtcome, hlt⟩
        · exact h4 j (by omega) hj2
      · rw [dif_neg hcond]
        refine ⟨le_refl _, by omega, ?_, ?_, ?_⟩
        · simpa using houtcome.symm
        · intro j hj hj2; omega
        · intro herr
          have hs : s = some 429 := by
            simpa using herr
          have : ¬ attempt < retries := fun hlt => hcond ⟨hs, hlt⟩
          omega

/-- C3: the retry helper invokes the wrapped upstream call at most
1 + floor(config.retryTimes) times; every re-attempt (that is, every call
except the last) happened exactly because the previous attempt failed with
status 429 while the retry budget was not exhausted; the value produced is
the outcome of the final invocation, so any error with a status other than
429 propagates unchanged and the first successful result is returned; and
an error with status 429 is only surfaced once the budget is spent. -/
theorem with429Retry_spec {α : Type} (outcomes : Nat → CallOutcome α) (retryTimes : ℚ) :
    (1 ≤ (runWith429Retry outcomes retryTimes).2) ∧
    ((runWith429Retry outcomes retryTimes).2 ≤ 1 + getSafeRetries retryTimes) ∧
    ((runWith429Retry outcomes retryTimes).1 =
      outcomes ((runWith429Retry outcomes retryTimes).2 - 1)) ∧
    (∀ j, j + 1 < (runWith429Retry outcomes retryTimes).2 →
      outcomes j = .err (some 429) ∧ j < getSafeRetries retryTimes) ∧
    ((runWith429Retry outcomes retryTimes).1 = .err (some 429) →
      (runWith429Retry outcomes retryTimes).2 = getSafeRetries retryTimes + 1) := by
  have hclamp :
      (if (0:ℚ) < (getSafeRetries retryTimes : ℚ) then
        (⌊(getSafeRetries retryTimes : ℚ)⌋).toNat else 0) = getSafeRetries retryTimes := by
    by_cases hpos : 0 < getSafeRetries retryTimes
    · rw [if_pos (by exact_mod_cast hpos)]
      simp
    · have hz : getSafeRetries retryTimes = 0 := by omega
      rw [hz]
      norm_num
  have hmain := retryLoop_spec outcomes (getSafeRetries retryTimes)
    (getSafeRetries retryTimes) 0 (by omega) (by omega)
  obtain ⟨h1, h2, h3, h4, h5⟩ := hmain
  unfold runWith429Retry with429Retry
  rw [hclamp]
  exact ⟨h1, by omega, h3, fun j hj => h4 j (Nat.zero_le j) hj, h5⟩

/-- Concrete instance of the retry behaviour: two 429 failures followed by
a success, with a budget of 5 retries, makes exactly three invocations and
returns the successful value. -/
theorem with429Retry_spec_witness :
    (runWith429Retry (fun k => if k < 2 then .err (some 429) else .ok (37:Nat)) 5).2 = 3 ∧
    (runWith429Retry (fun k => if k < 2 then .err (some 429) else .ok (37:Nat)) 5).1 =
      .ok 37 ∧
    (1 ≤ (runWith429Retry (fun k => if k < 2 then .err (some 429) else .ok (37:Nat)) 5).2 ∧
      (runWith429Retry (fun k => if k < 2 then .err (some 429) else .ok (37:Nat)) 5).2 ≤
        1 + getSafeRetries 5) := by
  refine ⟨?_, ?_, ?_⟩
  · norm_num [runWith429Retry, with429Retry, retryLoop, getSafeRetries]
  · norm_num [runWith429Retry, with429Retry, retryLoop, getSafeRetries]
  · have h := with429Retry_spec (fun k => if k < 2 then .err (some 429) else .ok (37:Nat)) 5
    exact ⟨h.1, h.2.1⟩

theorem splitLines_cons (c : Char) (s : List Char) :
    splitLines (c :: s) =
      if c = '\n' then ([] :: (splitLines s).1, (splitLines s).2)
      else consChar c (splitLines s) := by
  by_cases hc : c = '\n'
  · simp [splitLines, hc]
  · simp only [splitLines, if_neg hc, consChar]

theorem consChar_combineSplit (c : Char) (a b : List (List Char) × List Char) :
    consChar c (combineSplit a b) = combineSplit (consChar c a) b := by
  obtain ⟨A1, A2⟩ := a
  obtain ⟨B1, B2⟩ := b
  cases A1 with
  | nil =>
    cases B1 with
    | nil => simp [consChar, combineSplit]
    | cons l ls => simp [consChar, combineSplit]
  | cons x xs =>
    cases B1 with
    | nil => simp [consChar, combineSplit]
    | cons l ls => simp [consChar, combineSplit]

theorem splitLines_append (x y : List Char) :
    splitLines (x ++ y) = combineSplit (splitLines x) (splitLines y) := by
  induction x with
  | nil =>
    cases hsy : splitLines y with
    | mk B1 B2 =>
      cases B1 with
      | nil => simp [splitLines, combineSplit, hsy]
      | cons l ls => simp [splitLines, combineSplit, hsy]
  | cons c cs ih =>
    rw [List.cons_append, splitLines_cons, splitLines_cons, ih]
    by_cases hc : c = '\n'
    · rw [if_pos hc, if_pos hc]
      cases hsy : splitLines y with
      | mk B1 B2 =>
        cases B1 with
        | nil => simp [combineSplit]
        | cons l ls => simp [combineSplit]
    · rw [if_neg hc, if_neg hc, consChar_combineSplit]

theorem splitLines_fst_nil {s : List Char} (h : (splitLines s).1 = []) :
    (splitLines s).2 = s := by
  induction s with
  | nil => simp [splitLines]
  | cons c cs ih =>
    by_cases hc : c = '\n'
    · subst hc; simp [splitLines] at h
    · simp only [splitLines, if_neg hc] at h ⊢
      cases hx : (splitLines cs).1 with
      | nil =>
        simp only [hx] at h ⊢
        simp [ih hx]
      | cons a as => simp [hx] at h

theorem splitLines_rem_nil {s : List Char} (h : s.getLast? = some '\n') :
    (splitLines s).2 = [] := by
  induction s with
  | nil => simp at h
  | cons c cs ih =>
    cases cs with
    | nil =>
      simp at h
      subst h
      simp [splitLines]
    | cons d ds =>
      have htail : (d :: ds).getLast? = some '\n' := by
        rwa [List.getLast?_cons_cons] at h
      have hrem := ih htail
      by_cases hc : c = '\n'
      · rw [splitLines_cons, if_pos hc]
        simpa using hrem
      · rw [splitLines_cons, if_neg hc]
        cases hx : (splitLines (d :: ds)).1 with
        | nil =>
          exfalso
          have h1 := splitLines_fst_nil hx
          rw [hrem] at h1
          exact List.cons_ne_nil d ds h1.symm
        | cons a as => simp [consChar, hx, hrem]

theorem splitLines_rem_no_newline (s : List Char) : '\n' ∉ (splitLines s).2 := by
  induction s with
  | nil => simp [splitLines]
  | cons c cs ih =>
    by_cases hc : c = '\n'
    · subst hc; simpa [splitLines] using ih
    · simp only [splitLines, if_neg hc]
      cases hx : (splitLines cs).1 with
      | nil =>
        simp only [hx]
        intro hmem
        rcases List.mem_cons.mp hmem with h | h
        · exact hc h.symm
        · exact ih h
      | cons a as => simpa [hx] using ih

theorem splitLines_of_no_newline {s : List Char} (h : '\n' ∉ s) :
    splitLines s = ([], s) := by
  induction s with
  | nil => simp [splitLines]
  | cons c cs ih =>
    have hc : c ≠ '\n' := fun hceq => h (hceq ▸ List.mem_cons_self c cs)
    have hcs : '\n' ∉ cs := fun hmem => h (List.mem_cons_of_mem c hmem)
    simp only [splitLines, if_neg fun hceq => hc hceq, ih hcs]

theorem LineBuffer.append_append (lb : LineBuffer) (x y : List Char) :
    ((lb.append x).1.append y).1 = (lb.append (x ++ y)).1 ∧
    (lb.append x).2 ++ ((lb.append x).1.append y).2 = (lb.append (x ++ y)).2 := by
  have hx : splitLines (lb.buffer ++ (x ++ y)) =
      combineSplit (splitLines (lb.buffer ++ x)) (splitLines y) := by
    rw [← List.append_assoc]
    exact splitLines_append (lb.buffer ++ x) y
  have hremsplit : splitLines (splitLines (lb.buffer ++ x)).2 =
      ([], (splitLines (lb.buffer ++ x)).2) :=
    splitLines_of_no_newline (splitLines_rem_no_newline (lb.buffer ++ x))
  have hr : splitLines ((splitLines (lb.buffer ++ x)).2 ++ y) =
      combineSplit ([], (splitLines (lb.buffer ++ x)).2) (splitLines y) := by
    rw [splitLines_append (splitLines (lb.buffer ++ x)).2 y, hremsplit]
  simp only [LineBuffer.append, hx, hr]
  cases hsy : splitLines y with
  | mk B1 B2 =>
    cases B1 with
    | nil => simp [combineSplit]
    | cons l ls => simp [combineSplit]

theorem LineBuffer.appendAll_join (lb : LineBuffer) (h : '\n' ∉ lb.buffer) :
    ∀ cs : List (List Char), lb.appendAll cs = lb.append cs.flatten := by
  intro cs
  induction cs generalizing lb with
  | nil =>
    simp only [LineBuffer.appendAll, List.flatten_nil, LineBuffer.append,
      List.append_nil, splitLines_of_no_newline h]
  | cons c cs ih =>
    have hrem : '\n' ∉ ((lb.append c).1).buffer :=
      splitLines_rem_no_newline (lb.buffer ++ c)
    have hstep := LineBuffer.append_append lb c cs.flatten
    simp only [LineBuffer.appendAll, ih _ hrem, List.flatten_cons]
    exact Prod.ext hstep.1 hstep.2

/-- C8: for every byte stream ending in a newline and every partition of it
into chunks, concatenating the line lists returned by the successive
append calls equals splitting the whole stream on the newline character
and dropping the trailing empty segment; moreover nothing is left pending
in the buffer.  No bytes are lost, duplicated or reordered across chunk
boundaries. -/
theorem lineBuffer_complete (chunks : List (List Char))
    (hend : chunks.flatten.getLast? = some '\n') :
    (LineBuffer.appendAll ⟨[]⟩ chunks).2 = (jsSplitNewline chunks.flatten).dropLast ∧
    (LineBuffer.appendAll ⟨[]⟩ chunks).1.buffer = [] := by
  have hrun := LineBuffer.appendAll_join ⟨[]⟩ (by simp) chunks
  have hrem : (splitLines chunks.flatten).2 = [] := splitLines_rem_nil hend
  rw [hrun]
  simp only [LineBuffer.append, List.nil_append, jsSplitNewline, hrem]
  simp

/-- Concrete instance of line-buffer completeness: the stream ab, newline,
c, newline, split into the chunks a and b-newline-c-newline, yields the
lines ab and c with an empty final buffer. -/
theorem lineBuffer_complete_witness :
    ((['a'], ['b', '\n', 'c', '\n']) :
      List Char × List Char).1 = ['a'] ∧
    ([['a'], ['b', '\n', 'c', '\n']] : List (List Char)).flatten.getLast? = some '\n' ∧
    (LineBuffer.appendAll ⟨[]⟩ [['a'], ['b', '\n', 'c', '\n']]).2 =
      (jsSplitNewline ([['a'], ['b', '\n', 'c', '\n']] : List (List Char)).flatten).dropLast ∧
    (LineBuffer.appendAll ⟨[]⟩ [['a'], ['b', '\n', 'c', '\n']]).1.buffer = [] := by
  refine ⟨rfl, by decide, ?_⟩
  exact lineBuffer_complete [['a'], ['b', '\n', 'c', '\n']] (by decide)

theorem disableToken_indexInv (s : MgrState) (t : Token) : indexInv (disableToken s t) := by
  unfold indexInv disableToken
  exact Nat.mod_lt _ (by omega)

theorem disableToken_mem {s : MgrState} {t x : Token}
    (hx : x ∈ (disableToken s t).tokens) :
    x ∈ s.tokens ∧ x.refresh_token ≠ t.refresh_token := by
  unfold disableToken at hx
  simp only [List.mem_filter, Bool.not_eq_eq_eq_not, Bool.not_true, beq_eq_false_iff_ne,
    ne_eq] at hx
  exact ⟨hx.1, by simpa using hx.2⟩

theorem advanceIndex_indexInv {s : MgrState} (t : Token)
    (h : s.currentIndex < s.tokens.length) :
    indexInv (advanceIndex s t) := by
  have hpos : 0 < s.tokens.length := by omega
  unfold indexInv advanceIndex
  cases s.rotationStrategy with
  | round_robin =>
    simp only
    have := Nat.mod_lt (s.currentIndex + 1) hpos
    omega
  | request_count =>
    by_cases hc : s.requestCountPerToken ≤ countsGet s.tokenRequestCounts t.refresh_token
    · simp only [if_pos hc]
      have := Nat.mod_lt (s.currentIndex + 1) hpos
      omega
    · simp only [if_neg hc]
      omega
  | quota_exhausted =>
    simp only
    omega

theorem advanceIndex_tokens (s : MgrState) (t : Token) :
    (advanceIndex s t).tokens = s.tokens := by
  unfold advanceIndex
  cases s.rotationStrategy with
  | round_robin => rfl
  | request_count =>
    by_cases hc : s.requestCountPerToken ≤ countsGet s.tokenRequestCounts t.refresh_token
    · simp [if_pos hc]
    · simp [if_neg hc]
  | quota_exhausted => rfl

theorem getTokenLoop_spec (prep : Token → PrepOutcome) (tt si : Nat) :
    ∀ fuel i s, indexInv s →
      (indexInv (getTokenLoop prep tt si fuel i s).1) ∧
      (∀ x ∈ (getTokenLoop prep tt si fuel i s).1.tokens,
        ∃ y ∈ s.tokens, y.refresh_token = x.refresh_token) ∧
      (∀ t, (getTokenLoop prep tt si fuel i s).2 = .got t →
        ∃ y ∈ s.tokens, y.refresh_token = t.refresh_token) := by
  intro fuel
  induction fuel with
  | zero =>
    intro i s hinv
    refine ⟨hinv, ?_, ?_⟩
    · intro x hx; exact ⟨x, hx, rfl⟩
    · intro t ht; simp [getTokenLoop] at ht
  | succ n ih =>
    intro i s hinv
    rw [getTokenLoop]
    cases hget : s.tokens.get? ((si + i) % tt) with
    | none =>
      refine ⟨hinv, ?_, ?_⟩
      · intro x hx; exact ⟨x, hx, rfl⟩
      · intro t ht; simp at ht
    | some t =>
      dsimp only
      have htmem : t ∈ s.tokens := List.get?_mem hget
      have htlt : (si + i) % tt < s.tokens.length := by
        rcases List.get?_eq_some.mp hget with ⟨h, -⟩
        exact h
      cases hprep : prep t with
      | ready u =>
        dsimp only
        set t2 := applyUpdate t u with ht2
        set s2 : MgrState :=
          { s with tokens := s.tokens.set ((si + i) % tt) t2, currentIndex := (si + i) % tt }
          with hs2
        have hlen2 : s2.tokens.length = s.tokens.length := by
          simp [hs2]
        have hinv2 : s2.currentIndex < s2.tokens.length := by
          simp only [hs2]
          simpa using htlt
        have hrt2 : t2.refresh_token = t.refresh_token := rfl
        refine ⟨advanceIndex_indexInv t2 hinv2, ?_, ?_⟩
        · intro x hx
          rw [advanceIndex_tokens] at hx
          simp only [hs2] at hx
          rcases List.mem_or_eq_of_mem_set hx with hmem | heq
          · exact ⟨x, hmem, rfl⟩
          · subst heq
            exact ⟨t, htmem, hrt2.symm⟩
        · intro tr htr
          simp only [GetTokenResult.got.injEq] at htr
          subst htr
          exact ⟨t, htmem, hrt2.symm⟩
      | disable =>
        dsimp only
        by_cases hz : (disableToken s t).tokens.length = 0
        · rw [if_pos hz]
          refine ⟨disableToken_indexInv s t, ?_, ?_⟩
          · intro x hx; exact ⟨x, (disableToken_mem hx).1, rfl⟩
          · intro tr htr; simp at htr
        · rw [if_neg hz]
          obtain ⟨h1, h2, h3⟩ := ih (i + 1) (disableToken s t) (disableToken_indexInv s t)
          refine ⟨h1, ?_, ?_⟩
          · intro x hx
            obtain ⟨y, hy, hyrt⟩ := h2 x hx
            exact ⟨y, (disableToken_mem hy).1, hyrt⟩
          · intro tr htr
            obtain ⟨y, hy, hyrt⟩ := h3 tr htr
            exact ⟨y, (disableToken_mem hy).1, hyrt⟩
      | errorStatus st =>
        dsimp only
        by_cases hh : handleTokenError st = true
        · rw [if_pos hh]
          by_cases hz : (disableToken s t).tokens.length = 0
          · rw [if_pos hz]
            refine ⟨disableToken_indexInv s t, ?_, ?_⟩
            · intro x hx; exact ⟨x, (disableToken_mem hx).1, rfl⟩
            · intro tr htr; simp at htr
          · rw [if_neg hz]
            obtain ⟨h1, h2, h3⟩ := ih (i + 1) (disableToken s t) (disableToken_indexInv s t)
            refine ⟨h1, ?_, ?_⟩
            · intro x hx
              obtain ⟨y, hy, hyrt⟩ := h2 x hx
              exact ⟨y, (disableToken_mem hy).1, hyrt⟩
            · intro tr htr
              obtain ⟨y, hy, hyrt⟩ := h3 tr htr
              exact ⟨y, (disableToken_mem hy).1, hyrt⟩
        · rw [if_neg hh]
          exact ih (i + 1) s hinv

theorem getToken_spec (prep : Token → PrepOutcome) (s : MgrState) (hinv : indexInv s) :
    (indexInv (getToken prep s).1) ∧
    (∀ x ∈ (getToken prep s).1.tokens, ∃ y ∈ s.tokens, y.refresh_token = x.refresh_token) ∧
    (∀ t, (getToken prep s).2 = .got t → ∃ y ∈ s.tokens, y.refresh_token = t.refresh_token) := by
  unfold getToken
  by_cases hz : s.tokens.length = 0
  · rw [if_pos hz]
    refine ⟨hinv, ?_, ?_⟩
    · intro x hx; exact ⟨x, hx, rfl⟩
    · intro t ht; simp at ht
  · rw [if_neg hz]
    exact getTokenLoop_spec prep s.tokens.length s.currentIndex s.tokens.length 0 s hinv

theorem runOp_spec (op : MgrOp) (s : MgrState) (hinv : indexInv s) :
    (indexInv (runOp op s).1) ∧
    (∀ x ∈ (runOp op s).1.tokens, ∃ y ∈ s.tokens, y.refresh_token = x.refresh_token) ∧
    (∀ t, (runOp op s).2 = some t → ∃ y ∈ s.tokens, y.refresh_token = t.refresh_token) := by
  cases op with
  | opGetToken prep =>
    obtain ⟨h1, h2, h3⟩ := getToken_spec prep s hinv
    refine ⟨h1, h2, ?_⟩
    intro t ht
    simp only [runOp] at ht
    cases hres : (getToken prep s).2 with
    | got t0 =>
      rw [hres] at ht
      simp only [Option.some.injEq] at ht
      subst ht
      exact h3 t0 hres
    | noToken => rw [hres] at ht; simp at ht
    | jsError => rw [hres] at ht; simp at ht
  | opDisable t =>
    refine ⟨disableToken_indexInv s t, ?_, ?_⟩
    · intro x hx; exact ⟨x, (disableToken_mem hx).1, rfl⟩
    · intro tr htr; simp [runOp] at htr
  | opDisableCurrent t =>
    refine ⟨?_, ?_, ?_⟩
    · simp only [runOp, disableCurrentToken]
      cases s.tokens.find? (fun x => x.access_token == t.access_token) with
      | some found => exact disableToken_indexInv s found
      | none => exact hinv
    · simp only [runOp, disableCurrentToken]
      cases s.tokens.find? (fun x => x.access_token == t.access_token) with
      | some found =>
        intro x hx
        exact ⟨x, (disableToken_mem hx).1, rfl⟩
      | none =>
        intro x hx
        exact ⟨x, hx, rfl⟩
    · intro tr htr; simp [runOp] at htr
  | opRecordRequest t =>
    refine ⟨?_, ?_, ?_⟩
    · simp only [runOp, recordRequest]
      by_cases hrt : t.refresh_token ≠ ""
      · simpa [indexInv, if_pos hrt] using hinv
      · simpa [indexInv, if_neg hrt] using hinv
    · intro x hx
      simp only [runOp, recordRequest] at hx
      by_cases hrt : t.refresh_token ≠ ""
      · simp only [if_pos hrt] at hx; exact ⟨x, hx, rfl⟩
      · simp only [if_neg hrt] at hx; exact ⟨x, hx, rfl⟩
    · intro tr htr; simp [runOp] at htr
  | opUpdateRotation st rc =>
    refine ⟨?_, ?_, ?_⟩
    · simp only [runOp, updateRotationConfig]
      cases st with
      | some strat =>
        by_cases hc : 0 < rc
        · simpa [indexInv, if_pos hc] using hinv
        · simpa [indexInv, if_neg hc] using hinv
      | none =>
        by_cases hc : 0 < rc
        · simpa [indexInv, if_pos hc] using hinv
        · simpa [indexInv, if_neg hc] using hinv
    · intro x hx
      simp only [runOp, updateRotationConfig] at hx
      cases st with
      | some strat =>
        by_cases hc : 0 < rc
        · simp only [if_pos hc] at hx; exact ⟨x, hx, rfl⟩
        · simp only [if_neg hc] at hx; exact ⟨x, hx, rfl⟩
      | none =>
        by_cases hc : 0 < rc
        · simp only [if_pos hc] at hx; exact ⟨x, hx, rfl⟩
        · simp only [if_neg hc] at hx; exact ⟨x, hx, rfl⟩
    · intro tr htr; simp [runOp] at htr

theorem runOps_spec (ops : List MgrOp) :
    ∀ s, indexInv s →
      (indexInv (runOps ops s).1) ∧
      (∀ x ∈ (runOps ops s).1.tokens, ∃ y ∈ s.tokens, y.refresh_token = x.refresh_token) ∧
      (∀ t ∈ (runOps ops s).2, ∃ y ∈ s.tokens, y.refresh_token = t.refresh_token) := by
  induction ops with
  | nil =>
    intro s hinv
    refine ⟨hinv, ?_, ?_⟩
    · intro x hx; exact ⟨x, hx, rfl⟩
    · intro t ht; simp [runOps] at ht
  | cons op ops ih =>
    intro s hinv
    obtain ⟨h1, h2, h3⟩ := runOp_spec op s hinv
    obtain ⟨g1, g2, g3⟩ := ih (runOp op s).1 h1
    refine ⟨g1, ?_, ?_⟩
    · intro x hx
      simp only [runOps] at hx
      obtain ⟨y, hy, hyrt⟩ := g2 x hx
      obtain ⟨z, hz, hzrt⟩ := h2 y hy
      exact ⟨z, hz, by rw [hzrt, hyrt]⟩
    · intro t ht
      simp only [runOps, List.mem_append] at ht
      rcases ht with hfirst | hrest
      · cases hr : (runOp op s).2 with
        | some t0 =>
          rw [hr] at hfirst
          simp only [List.mem_singleton] at hfirst
          subst hfirst
          exact h3 t hr
        | none => rw [hr] at hfirst; simp at hfirst
      · obtain ⟨y, hy, hyrt⟩ := g3 t hrest
        obtain ⟨z, hz, hzrt⟩ := h2 y hy
        exact ⟨z, hz, by rw [hzrt, hyrt]⟩

/-- C1 (amended): once an account has been disabled through disableToken,
no account later returned by getToken carries its refresh_token; and after
every subsequent operation of the manager the rotation index stays within
the interval from 0 to the number of active accounts whenever at least one
active account remains (equivalently, below max(active, 1); when the pool
empties the index is 0, and the interval of the original claim is empty). -/
theorem disable_isolation (tk : Token) (ops : List MgrOp) (s : MgrState) :
    (∀ t ∈ (runOps ops (disableToken s tk)).2, t.refresh_token ≠ tk.refresh_token) ∧
    indexInv (runOps ops (disableToken s tk)).1 := by
  obtain ⟨h1, -, h3⟩ := runOps_spec ops (disableToken s tk) (disableToken_indexInv s tk)
  refine ⟨?_, h1⟩
  intro t ht heq
  obtain ⟨y, hy, hyrt⟩ := h3 t ht
  have := (disableToken_mem hy).2
  rw [hyrt, heq] at this
  exact this rfl

/-- Concrete instance of disable isolation: disabling the only account of
a one-account pool, then running a getToken whose prepare always
succeeds, returns no account at all and keeps the index invariant. -/
theorem disable_isolation_witness :
    (∀ t ∈ (runOps
        [.opGetToken (fun _ => .ready ⟨some "a", some 3599, some 5, none⟩)]
        (disableToken
          { tokens := [⟨"rt1", some "at1", some 3599, some 5, none⟩],
            currentIndex := 0, rotationStrategy := .round_robin,
            requestCountPerToken := 3, tokenRequestCounts := [] }
          ⟨"rt1", some "at1", some 3599, some 5, none⟩)).2,
      t.refresh_token ≠ "rt1") ∧
    indexInv (runOps
        [.opGetToken (fun _ => .ready ⟨some "a", some 3599, some 5, none⟩)]
        (disableToken
          { tokens := [⟨"rt1", some "at1", some 3599, some 5, none⟩],
            currentIndex := 0, rotationStrategy := .round_robin,
            requestCountPerToken := 3, tokenRequestCounts := [] }
          ⟨"rt1", some "at1", some 3599, some 5, none⟩)).1 :=
  disable_isolation ⟨"rt1", some "at1", some 3599, some 5, none⟩
    [.opGetToken (fun _ => .ready ⟨some "a", some 3599, some 5, none⟩)]
    { tokens := [⟨"rt1", some "at1", some 3599, some 5, none⟩],
      currentIndex := 0, rotationStrategy := .round_robin,
      requestCountPerToken := 3, tokenRequestCounts := [] }

/-- Counterexample to C1 as stated: disabling the only account empties the
active list and leaves currentIndex = 0, which does not lie in the empty
interval from 0 to the number of active accounts. -/
theorem rotation_index_counterexample :
    ((disableToken
        { tokens := [⟨"rt1", some "at1", some 3599, some 5, none⟩],
          currentIndex := 0, rotationStrategy := .round_robin,
          requestCountPerToken := 3, tokenRequestCounts := [] }
        ⟨"rt1", some "at1", some 3599, some 5, none⟩).tokens.length = 0) ∧
    ¬ ((disableToken
        { tokens := [⟨"rt1", some "at1", some 3599, some 5, none⟩],
          currentIndex := 0, rotationStrategy := .round_robin,
          requestCountPerToken := 3, tokenRequestCounts := [] }
        ⟨"rt1", some "at1", some 3599, some 5, none⟩).currentIndex <
      (disableToken
        { tokens := [⟨"rt1", some "at1", some 3599, some 5, none⟩],
          currentIndex := 0, rotationStrategy := .round_robin,
          requestCountPerToken := 3, tokenRequestCounts := [] }
        ⟨"rt1", some "at1", some 3599, some 5, none⟩).tokens.length) := by
  constructor
  · rfl
  · decide

theorem foldl_disable_preserves (rt : String) :
    ∀ (l : List Token) (s : MgrState),
      (∀ x ∈ s.tokens, x.refresh_token ≠ rt) →
      ∀ x ∈ (l.foldl (fun acc t => disableToken acc t) s).tokens, x.refresh_token ≠ rt := by
  intro l
  induction l with
  | nil => intro s h; simpa using h
  | cons b l ih =>
    intro s h
    simp only [List.foldl_cons]
    refine ih (disableToken s b) ?_
    intro x hx
    exact h x (disableToken_mem hx).1

theorem foldl_disable_removes (a : Token) :
    ∀ (l : List Token), a ∈ l → ∀ (s : MgrState),
      ∀ x ∈ (l.foldl (fun acc t => disableToken acc t) s).tokens,
        x.refresh_token ≠ a.refresh_token := by
  intro l
  induction l with
  | nil => intro ha; simp at ha
  | cons b l ih =>
    intro ha s
    rcases List.mem_cons.mp ha with heq | hmem
    · subst heq
      simp only [List.foldl_cons]
      refine foldl_disable_preserves a.refresh_token l (disableToken s a) ?_
      intro x hx
      exact (disableToken_mem hx).2
    · simp only [List.foldl_cons]
      exact ih hmem (disableToken s b)

theorem isExpired_after_success (t : Token) (acc : Option String) (ei buf now : Nat)
    (hnow : 0 < now) (hei : 0 < ei) (hbuf : buf < ei * 1000) :
    isExpired buf now
      { t with access_token := acc, expires_in := some ei, timestamp := some now } = false := by
  have ht : jsTruthyNat (some now) = true := by
    simp only [jsTruthyNat, decide_eq_true_eq]
    omega
  have he : jsTruthyNat (some ei) = true := by
    simp only [jsTruthyNat, decide_eq_true_eq]
    omega
  simp only [isExpired, ht, he, Bool.not_true, Bool.or_self, Bool.false_eq_true, if_false,
    Option.getD_some, decide_eq_false_iff_not, not_le]
  omega

/-- C2 (amended): when refreshToken returns normally, the fields
access_token, expires_in and timestamp are all replaced together from the
response and the clock, and isExpired is false immediately afterwards
provided the response carried a positive expires_in with
expires_in * 1000 above the refresh buffer (an upstream response whose
expires_in is missing, zero or not above the buffer leaves the account
expired, which the counterexample exhibits); and when the refresh of an
expired account fails with upstream status 400 or 403 in the refresh
pipeline of the manager (the startup batch, and equally the getToken
prepare path through _handleTokenError), the account is no longer in the
active list afterwards. -/
theorem refresh_atomicity (t : Token) (acc : Option String) (ei buf now : Nat)
    (resp : Token → RefreshOutcome) (s : MgrState) (a : Token) (stOpt : Option Nat)
    (hnow : 0 < now) (hei : 0 < ei) (hbuf : buf < ei * 1000)
    (hmem : a ∈ s.tokens) (hexp : isExpired buf now a = true)
    (hfail : resp a = .failure stOpt)
    (hst : stOpt.getD 500 = 400 ∨ stOpt.getD 500 = 403) :
    (refreshToken t (.success ⟨acc, some ei⟩) now =
      .ok { t with access_token := acc, expires_in := some ei, timestamp := some now }) ∧
    (isExpired buf now
      { t with access_token := acc, expires_in := some ei, timestamp := some now } = false) ∧
    (∀ x ∈ (refreshExpiredBatch resp buf now s).tokens,
      x.refresh_token ≠ a.refresh_token) := by
  refine ⟨rfl, isExpired_after_success t acc ei buf now hnow hei hbuf, ?_⟩
  have hsafe : refreshTokenSafe a (resp a) now = .disable := by
    rw [hfail]
    simp only [refreshTokenSafe, refreshToken]
    rcases hst with h | h <;> rw [if_pos (by omega)]
  have hdis : a ∈ s.tokens.filter
      (fun x => isExpired buf now x && decide (refreshTokenSafe x (resp x) now = .disable)) := by
    rw [List.mem_filter]
    exact ⟨hmem, by rw [hexp, hsafe]; simp⟩
  intro x hx
  unfold refreshExpiredBatch at hx
  exact foldl_disable_removes a _ hdis _ x hx

/-- Concrete instance of the amended refresh atomicity: a refresh response
with expires_in 3599 at clock 1000 and buffer 300000 leaves the account
unexpired, and a batch refresh answering status 400 removes the expired
account rt1 from the active list. -/
theorem refresh_atomicity_witness :
    (refreshToken ⟨"rt1", some "a1", some 3599, some 5, none⟩
        (.success ⟨some "a2", some 3599⟩) 1000 =
      .ok ⟨"rt1", some "a2", some 3599, some 1000, none⟩) ∧
    (isExpired 300000 1000 ⟨"rt1", some "a2", some 3599, some 1000, none⟩ = false) ∧
    (∀ x ∈ (refreshExpiredBatch (fun _ => .failure (some 400)) 300000 1000
        { tokens := [⟨"rt1", some "a1", some 10, some 1, none⟩],
          currentIndex := 0, rotationStrategy := .round_robin,
          requestCountPerToken := 3, tokenRequestCounts := [] }).tokens,
      x.refresh_token ≠ "rt1") :=
  refresh_atomicity ⟨"rt1", some "a1", some 3599, some 5, none⟩ (some "a2") 3599 300000 1000
    (fun _ => .failure (some 400))
    { tokens := [⟨"rt1", some "a1", some 10, some 1, none⟩],
      currentIndex := 0, rotationStrategy := .round_robin,
      requestCountPerToken := 3, tokenRequestCounts := [] }
    ⟨"rt1", some "a1", some 10, some 1, none⟩ (some 400)
    (by omega) (by omega) (by omega) (by simp) (by decide) rfl (by simp)

/-- Counterexample to C2 as stated: an upstream refresh response carrying
expires_in 0 makes refreshToken return normally while isExpired is still
true immediately afterwards (whatever the refresh buffer is, the falsy
check on expires_in alone already yields true; buffer 0 shown). -/
theorem refresh_atomicity_counterexample :
    refreshToken ⟨"rt1", some "a1", some 3599, some 5, none⟩
        (.success ⟨some "a2", some 0⟩) 1000 =
      .ok ⟨"rt1", some "a2", some 0, some 1000, none⟩ ∧
    isExpired 0 1000 ⟨"rt1", some "a2", some 0, some 1000, none⟩ = true := ⟨rfl, rfl⟩

theorem prefix_append_cases {α : Type} {p a b : List α} (h : p <+: a ++ b) :
    p <+: a ∨ ∃ s, p = a ++ s ∧ s <+: b := by
  induction a generalizing p with
  | nil =>
    right
    exact ⟨p, rfl, by simpa using h⟩
  | cons x a ih =>
    rw [List.cons_append] at h
    rcases List.prefix_cons_iff.mp h with hnil | ⟨t, hpt, htp⟩
    · subst hnil; left; exact List.nil_prefix
    · rcases ih htp with h1 | ⟨s, hs1, hs2⟩
      · left
        subst hpt
        exact List.cons_prefix_cons.mpr ⟨rfl, h1⟩
      · right
        exact ⟨s, by rw [hpt, hs1, List.cons_append], hs2⟩

theorem infix_append_cases {α : Type} {p a b : List α} (h : p <:+: a ++ b) :
    p <:+: a ∨ p <:+: b ∨
      ∃ s t, p = s ++ t ∧ s ≠ [] ∧ t ≠ [] ∧ s <:+ a ∧ t <+: b := by
  induction a generalizing p with
  | nil =>
    right; left; simpa using h
  | cons x a ih =>
    rw [List.cons_append] at h
    rcases List.infix_cons_iff.mp h with hpre | hinf
    · rcases List.prefix_cons_iff.mp hpre with hnil | ⟨t, hpt, htp⟩
      · subst hnil
        left
        exact ⟨[], x :: a, rfl⟩
      · rcases prefix_append_cases htp with h1 | ⟨s, hs1, hs2⟩
        · left
          subst hpt
          exact (List.cons_prefix_cons.mpr ⟨rfl, h1⟩).isInfix
        · by_cases hs : s = []
          · subst hs
            left
            have hpx : p = x :: a := by rw [hpt, hs1, List.append_nil]
            exact hpx ▸ List.infix_rfl
          · right; right
            refine ⟨x :: a, s, ?_, by simp, hs, List.suffix_rfl, hs2⟩
            rw [hpt, hs1, List.cons_append]
    · rcases ih hinf with h1 | h2 | ⟨s, t, h3, h4, h5, h6, h7⟩
      · left; exact List.infix_cons h1
      · right; left; exact h2
      · right; right
        exact ⟨s, t, h3, h4, h5, h6.trans (List.suffix_cons x a), h7⟩

theorem hexDigitChar_ne_T (n : Nat) : hexDigitChar n ≠ 'T' := by
  unfold hexDigitChar
  split <;> decide

theorem jsonEscapeChar_shape (c : Char) :
    jsonEscapeChar c = [c] ∨ ∃ l, jsonEscapeChar c = '\\' :: l := by
  unfold jsonEscapeChar
  split_ifs <;> first | exact Or.inl rfl | exact Or.inr ⟨_, rfl⟩

theorem jsonEscapeChar_length_le (c : Char) : (jsonEscapeChar c).length ≤ 6 := by
  unfold jsonEscapeChar
  split_ifs <;> simp

theorem jsonEscapeChar_of_mem_T {c : Char} (h : 'T' ∈ jsonEscapeChar c) :
    jsonEscapeChar c = ['T'] ∧ c = 'T' := by
  unfold jsonEscapeChar at h ⊢
  split_ifs at h ⊢ with h1 h2 h3 h4 h5 h6 h7 h8
  · exact absurd h (by decide)
  · exact absurd h (by decide)
  · exact absurd h (by decide)
  · exact absurd h (by decide)
  · exact absurd h (by decide)
  · exact absurd h (by decide)
  · exact absurd h (by decide)
  · exfalso
    simp only [List.mem_cons, List.not_mem_nil, or_false] at h
    rcases h with h | h | h | h | h | h
    · exact absurd h (by decide)
    · exact absurd h (by decide)
    · exact absurd h (by decide)
    · exact absurd h (by decide)
    · exact hexDigitChar_ne_T _ h.symm
    · exact hexDigitChar_ne_T _ h.symm
  · simp only [List.mem_singleton] at h
    subst h
    exact ⟨rfl, rfl⟩

theorem bind_escape_of_identity {l : List Char} (h : ∀ c ∈ l, jsonEscapeChar c = [c]) :
    l.flatMap jsonEscapeChar = l := by
  induction l with
  | nil => rfl
  | cons c cs ih =>
    rw [List.flatMap_cons, h c (List.mem_cons_self c cs),
      ih fun x hx => h x (List.mem_cons_of_mem c hx)]
    rfl

theorem prefix_bind_escape :
    ∀ (ys q : List Char), '\\' ∉ q → q <+: ys.flatMap jsonEscapeChar → q <+: ys := by
  intro ys
  induction ys with
  | nil =>
    intro q hq h
    rw [List.flatMap_nil, List.prefix_nil] at h
    subst h
    exact List.nil_prefix
  | cons y ys ih =>
    intro q hq h
    rw [List.flatMap_cons] at h
    cases q with
    | nil => exact List.nil_prefix
    | cons a q2 =>
      rcases jsonEscapeChar_shape y with hy | ⟨l, hy⟩
      · rw [hy, List.singleton_append] at h
        obtain ⟨rfl, h2⟩ := List.cons_prefix_cons.mp h
        have hq2 : '\\' ∉ q2 := fun hm => hq (List.mem_cons_of_mem _ hm)
        exact List.cons_prefix_cons.mpr ⟨rfl, ih q2 hq2 h2⟩
      · rw [hy, List.cons_append] at h
        obtain ⟨ha, -⟩ := List.cons_prefix_cons.mp h
        exact absurd (ha ▸ List.mem_cons_self a q2) hq

theorem infix_bind_escape :
    ∀ (xs : List Char), callerPhrase <:+: xs.flatMap jsonEscapeChar → callerPhrase <:+: xs := by
  intro xs
  induction xs with
  | nil =>
    intro h
    rw [List.flatMap_nil, List.infix_nil] at h
    exact absurd h (by decide)
  | cons c cs ih =>
    intro h
    rw [List.flatMap_cons] at h
    rcases infix_append_cases h with h1 | h2 | ⟨s, t, hp, hsne, htne, hsuf, hpre⟩
    · exfalso
      have hlen := h1.length_le
      have hle := jsonEscapeChar_length_le c
      have hcp : callerPhrase.length = 19 := by decide
      omega
    · exact List.infix_cons (ih h2)
    · cases s with
      | nil => exact absurd rfl hsne
      | cons a s2 =>
        have ha : a = 'T' := by
          have hh := congrArg List.head? hp
          simp only [List.cons_append, List.head?_cons] at hh
          have : callerPhrase.head? = some 'T' := by decide
          rw [this] at hh
          exact (Option.some.injEq _ _ ▸ hh).symm
        subst ha
        have hTmem : 'T' ∈ jsonEscapeChar c :=
          hsuf.subset (List.mem_cons_self 'T' s2)
        obtain ⟨hblock, hc⟩ := jsonEscapeChar_of_mem_T hTmem
        rw [hblock] at hsuf
        have hs2 : s2 = [] := by
          have hlen := hsuf.length_le
          simp only [List.length_cons, List.length_nil] at hlen
          exact List.eq_nil_of_length_eq_zero (by omega)
        subst hs2
        have htnb : '\\' ∉ t := by
          intro hm
          have : ('\\' : Char) ∈ callerPhrase := by
            rw [hp]
            exact List.mem_append_right _ hm
          exact absurd this (by decide)
        have htcs : t <+: cs := prefix_bind_escape cs t htnb hpre
        subst hc
        have hfin : callerPhrase <+: 'T' :: cs := by
          rw [hp, List.singleton_append]
          exact List.cons_prefix_cons.mpr ⟨rfl, htcs⟩
        exact hfin.isInfix

theorem infix_escape_of_infix {body : List Char} (h : callerPhrase <:+: body) :
    callerPhrase <:+: body.flatMap jsonEscapeChar := by
  obtain ⟨u, v, huv⟩ := h
  have hid : callerPhrase.flatMap jsonEscapeChar = callerPhrase :=
    bind_escape_of_identity (by decide)
  refine ⟨u.flatMap jsonEscapeChar, v.flatMap jsonEscapeChar, ?_⟩
  rw [← huv, List.flatMap_append, List.flatMap_append, hid]

theorem isCaller_iff (body : List Char) :
    isCallerDoesNotHavePermission body = true ↔ callerPhrase <:+: body := by
  rw [isCallerDoesNotHavePermission, decide_eq_true_eq, jsonQuoteString]
  constructor
  · intro h
    rcases List.infix_cons_iff.mp h with hpre | hinf
    · exfalso
      have hcp : callerPhrase = 'T' :: callerPhrase.tail := by decide
      rw [hcp] at hpre
      obtain ⟨hq, -⟩ := List.cons_prefix_cons.mp hpre
      exact absurd hq (by decide)
    · rcases infix_append_cases hinf with h1 | h2 | ⟨s, t, hp, hsne, htne, hsuf, hpre⟩
      · exact infix_bind_escape body h1
      · exfalso
        have hlen := h2.length_le
        have hcp : callerPhrase.length = 19 := by decide
        simp only [List.length_singleton] at hlen
        omega
      · exfalso
        have ht : t = ['"'] := by
          cases t with
          | nil => exact absurd rfl htne
          | cons b t2 =>
            obtain ⟨hb, h2⟩ := List.cons_prefix_cons.mp hpre
            rw [List.prefix_nil] at h2
            rw [hb, h2]
        have : ('"' : Char) ∈ callerPhrase := by
          rw [hp, ht]
          exact List.mem_append_right _ (List.mem_singleton.mpr rfl)
        exact absurd this (by decide)
  · intro h
    have h2 := infix_escape_of_infix h
    have h3 : callerPhrase <:+: body.flatMap jsonEscapeChar ++ ['"'] := by
      obtain ⟨u, v, huv⟩ := h2
      exact ⟨u, v ++ ['"'], by rw [← huv]; simp⟩
    exact List.infix_cons h3

/-- C9: when an upstream chat call fails with status 403, a body that
contains the string "The caller does not" is surfaced as the
context-overflow API error and the current account is not disabled; any
other 403 body first disables the current account (the first active
account carrying its access_token is removed) and is surfaced as the
permission-denied error; in both cases the thrown error carries the
upstream status and body. -/
theorem handleApiError_403 (s : MgrState) (t : Token) (body : List Char)
    (hmem : t ∈ s.tokens) :
    ((callerPhrase <:+: body) →
      (handleApiError s t 403 body).1 = s ∧
      (handleApiError s t 403 body).2.kind = .contextOverflow) ∧
    ((¬ callerPhrase <:+: body) →
      (handleApiError s t 403 body).1 = disableCurrentToken s t ∧
      (handleApiError s t 403 body).1.tokens.length < s.tokens.length ∧
      (handleApiError s t 403 body).2.kind = .permissionDenied) ∧
    ((handleApiError s t 403 body).2.status = 403 ∧
      (handleApiError s t 403 body).2.body = body) := by
  by_cases hc : callerPhrase <:+: body
  · have hflag : isCallerDoesNotHavePermission body = true := (isCaller_iff body).mpr hc
    refine ⟨fun _ => ?_, fun hnc => absurd hc hnc, ?_⟩
    · simp [handleApiError, hflag]
    · simp [handleApiError, hflag]
  · have hflag : isCallerDoesNotHavePermission body = false := by
      rcases Bool.eq_false_or_eq_true (isCallerDoesNotHavePermission body) with h | h
      · exact absurd ((isCaller_iff body).mp h) hc
      · exact h
    refine ⟨fun hcc => absurd hcc hc, fun _ => ?_, ?_⟩
    · refine ⟨by simp [handleApiError, hflag], ?_, by simp [handleApiError, hflag]⟩
      have hfind : ∃ found, s.tokens.find? (fun x => x.access_token == t.access_token)
          = some found := by
        rcases hexists : s.tokens.find? (fun x => x.access_token == t.access_token) with
          _ | found
        · exfalso
          have := List.find?_eq_none.mp hexists t hmem
          simp at this
        · exact ⟨found, hexists⟩
      obtain ⟨found, hfound⟩ := hfind
      have hfmem : found ∈ s.tokens := List.mem_of_find?_eq_some hfound
      simp only [handleApiError, hflag, if_pos rfl, Bool.false_eq_true, if_false,
        disableCurrentToken, hfound, disableToken]
      refine List.length_filter_lt_length_iff_exists.mpr ?_
      exact ⟨found, hfmem, by simp⟩
    · simp [handleApiError, hflag]

/-- Concrete instance of the 403 handling: an unrelated body disables the
only matching account, and the thrown error keeps status and body. -/
theorem handleApiError_403_witness :
    (handleApiError
        { tokens := [⟨"rt1", some "at1", some 3599, some 5, none⟩],
          currentIndex := 0, rotationStrategy := .round_robin,
          requestCountPerToken := 3, tokenRequestCounts := [] }
        ⟨"rt1", some "at1", some 3599, some 5, none⟩ 403 ("quota" : String).toList).1 =
      disableCurrentToken
        { tokens := [⟨"rt1", some "at1", some 3599, some 5, none⟩],
          currentIndex := 0, rotationStrategy := .round_robin,
          requestCountPerToken := 3, tokenRequestCounts := [] }
        ⟨"rt1", some "at1", some 3599, some 5, none⟩ ∧
    (handleApiError
        { tokens := [⟨"rt1", some "at1", some 3599, some 5, none⟩],
          currentIndex := 0, rotationStrategy := .round_robin,
          requestCountPerToken := 3, tokenRequestCounts := [] }
        ⟨"rt1", some "at1", some 3599, some 5, none⟩ 403
        ("quota" : String).toList).1.tokens.length < 1 ∧
    (handleApiError
        { tokens := [⟨"rt1", some "at1", some 3599, some 5, none⟩],
          currentIndex := 0, rotationStrategy := .round_robin,
          requestCountPerToken := 3, tokenRequestCounts := [] }
        ⟨"rt1", some "at1", some 3599, some 5, none⟩ 403
        ("quota" : String).toList).2.kind = .permissionDenied :=
  (handleApiError_403
    { tokens := [⟨"rt1", some "at1", some 3599, some 5, none⟩],
      currentIndex := 0, rotationStrategy := .round_robin,
      requestCountPerToken := 3, tokenRequestCounts := [] }
    ⟨"rt1", some "at1", some 3599, some 5, none⟩ ("quota" : String).toList
    (by simp)).2.1 (by decide)

/-- C10: the chunk parse is total and silently tolerant: the embedding
returns for every line and parser state (every TypeError and JSON parse
error of the source is caught by its try/catch and modelled by an
explicit cut-off), and a line that does not start with the data prefix,
or whose payload does not parse as JSON, emits no event, performs no
cache write and leaves the parser state unchanged. -/
theorem parseAndEmitStreamChunk_tolerant (parseJson : String → Option JValue)
    (genId : String) (origName : Option String → Option JValue → Option String)
    (shouldCache : Bool → Bool → Bool) (isImage : Option String → Bool)
    (line : String) (st : ParseState) :
    (line.startsWith "data: " = false →
      parseAndEmitStreamChunk parseJson genId origName shouldCache isImage line st =
        (st, [], none)) ∧
    (parseJson (line.drop 6) = none →
      parseAndEmitStreamChunk parseJson genId origName shouldCache isImage line st =
        (st, [], none)) := by
  constructor
  · intro h
    unfold parseAndEmitStreamChunk
    rw [h]
    rfl
  · intro h
    unfold parseAndEmitStreamChunk
    by_cases hs : line.startsWith "data: "
    · rw [hs, h]
      rfl
    · rw [Bool.not_eq_true] at hs
      rw [hs]
      rfl

/-- Concrete instance of the tolerance: a line without the data prefix,
and a data line whose payload does not parse, both leave a fresh state
unchanged and emit nothing. -/
theorem parseAndEmitStreamChunk_tolerant_witness :
    (("hello" : String).startsWith "data: " = false ∧
      parseAndEmitStreamChunk (fun _ => none) "id0" (fun _ _ => none)
        (fun _ _ => false) (fun _ => false) "hello"
        ⟨"", none, [], false, none, some "gemini-2.5-pro"⟩ =
        (⟨"", none, [], false, none, some "gemini-2.5-pro"⟩, [], none)) ∧
    ((fun (_ : String) => (none : Option JValue)) (("data: odd" : String).drop 6) = none ∧
      parseAndEmitStreamChunk (fun _ => none) "id0" (fun _ _ => none)
        (fun _ _ => false) (fun _ => false) "data: odd"
        ⟨"", none, [], false, none, some "gemini-2.5-pro"⟩ =
        (⟨"", none, [], false, none, some "gemini-2.5-pro"⟩, [], none)) := by
  refine ⟨⟨by decide, ?_⟩, ⟨rfl, ?_⟩⟩
  · exact (parseAndEmitStreamChunk_tolerant (fun _ => none) "id0" (fun _ _ => none)
      (fun _ _ => false) (fun _ => false) "hello"
      ⟨"", none, [], false, none, some "gemini-2.5-pro"⟩).1 (by decide)
  · exact (parseAndEmitStreamChunk_tolerant (fun _ => none) "id0" (fun _ _ => none)
      (fun _ _ => false) (fun _ => false) "data: odd"
      ⟨"", none, [], false, none, some "gemini-2.5-pro"⟩).2 rfl

/-- C5 (amended): the resolution is by whole context, not per bucket:
when the cache holds a signature for either bucket of the model, the
cached context is returned unchanged - a bucket the cache lacks stays
empty instead of falling back to a hardcoded default or the sentinel;
only when the cache holds neither bucket are the hardcoded per-model
defaults consulted (the tool bucket only when the request has tools, and
each bucket borrowing the other when only one exists), with the sentinel
skip_thought_signature_validator for both buckets as the final fallback. -/
theorem signature_resolution (cache : SigCache)
    (hardThought hardTool : String → Option String)
    (model : String) (hasTools : Bool) :
    ((jsTruthyStr (getSignatureContext cache model hasTools).reasoningSignature ||
        jsTruthyStr (getSignatureContext cache model hasTools).toolSignature) = true →
      getGeminiCliSignatureContext cache hardThought hardTool model hasTools =
        getSignatureContext cache model hasTools) ∧
    ((jsTruthyStr (getSignatureContext cache model hasTools).reasoningSignature ||
        jsTruthyStr (getSignatureContext cache model hasTools).toolSignature) = false →
      (jsTruthyStr (hardThought model) ||
        jsTruthyStr (if hasTools then hardTool model else hardThought model)) = true →
      getGeminiCliSignatureContext cache hardThought hardTool model hasTools =
        { reasoningSignature :=
            jsOr (hardThought model) (if hasTools then hardTool model else hardThought model),
          reasoningContent := some " ",
          toolSignature :=
            jsOr (if hasTools then hardTool model else hardThought model) (hardThought model),
          toolContent := some " " }) ∧
    ((jsTruthyStr (getSignatureContext cache model hasTools).reasoningSignature ||
        jsTruthyStr (getSignatureContext cache model hasTools).toolSignature) = false →
      (jsTruthyStr (hardThought model) ||
        jsTruthyStr (if hasTools then hardTool model else hardThought model)) = false →
      getGeminiCliSignatureContext cache hardThought hardTool model hasTools =
        ⟨some SKIP_THOUGHT_SIGNATURE_VALIDATOR, some " ",
          some SKIP_THOUGHT_SIGNATURE_VALIDATOR, some " "⟩) := by
  refine ⟨?_, ?_, ?_⟩
  · intro h
    simp [getGeminiCliSignatureContext, h]
  · intro h1 h2
    simp [getGeminiCliSignatureContext, h1, h2]
  · intro h1 h2
    simp [getGeminiCliSignatureContext, h1, h2]

/-- Concrete instance of the resolution: an empty cache and no hardcoded
defaults resolve to the sentinel for both buckets. -/
theorem signature_resolution_witness :
    getGeminiCliSignatureContext ⟨[]⟩ (fun _ => none) (fun _ => none) "gemini-2.5-pro" true =
      ⟨some SKIP_THOUGHT_SIGNATURE_VALIDATOR, some " ",
        some SKIP_THOUGHT_SIGNATURE_VALIDATOR, some " "⟩ :=
  (signature_resolution ⟨[]⟩ (fun _ => none) (fun _ => none) "gemini-2.5-pro" true).2.2
    (by decide) (by decide)

/-- Counterexample to C5 as stated: with a cached reasoning-bucket entry
R for the model, no cached tool-bucket entry, and a hardcoded tool
default H, the claimed fallback demands the tool bucket resolve to H
(or, failing that, the sentinel), but the code returns the cached context
unchanged with an empty tool bucket. -/
theorem signature_resolution_counterexample :
    cacheGet ⟨[⟨"gemini-2.5-pro", false, "R", "rc"⟩]⟩ "gemini-2.5-pro" true = none ∧
    (fun (_ : String) => some "H") "gemini-2.5-pro" = some "H" ∧
    (getGeminiCliSignatureContext ⟨[⟨"gemini-2.5-pro", false, "R", "rc"⟩]⟩
        (fun _ => none) (fun _ => some "H") "gemini-2.5-pro" true).toolSignature = none ∧
    (getGeminiCliSignatureContext ⟨[⟨"gemini-2.5-pro", false, "R", "rc"⟩]⟩
        (fun _ => none) (fun _ => some "H") "gemini-2.5-pro" true).toolSignature ≠ some "H" ∧
    (getGeminiCliSignatureContext ⟨[⟨"gemini-2.5-pro", false, "R", "rc"⟩]⟩
        (fun _ => none) (fun _ => some "H") "gemini-2.5-pro" true).toolSignature ≠
      some SKIP_THOUGHT_SIGNATURE_VALIDATOR := by
  refine ⟨by decide, rfl, by decide, by decide, by decide⟩

/-- Fold invariants: a property preserved by every step holds of the
fold. -/
theorem foldl_induction {α β : Type} (f : β → α → β) (P : β → Prop) :
    ∀ (l : List α) (b : β), P b → (∀ b a, a ∈ l → P b → P (f b a)) → P (l.foldl f b)
  | [], _, hb, _ => hb
  | a :: l, b, hb, hf =>
    foldl_induction f P l (f b a) (hf b a (List.mem_cons_self a l) hb)
      (fun b' a' ha' hb' => hf b' a' (List.mem_cons_of_mem a ha') hb')

theorem mem_of_getLast?_eq {α : Type} : ∀ {l : List α} {a : α}, l.getLast? = some a → a ∈ l := by
  intro l
  induction l with
  | nil => intro a h; simp [List.getLast?] at h
  | cons x xs ih =>
    intro a h
    cases xs with
    | nil =>
      simp [List.getLast?] at h
      simp [h]
    | cons y ys =>
      rw [List.getLast?_cons_cons] at h
      exact List.mem_cons_of_mem x (ih h)

theorem mem_ite_nil_singleton {α : Type} {x p : α} {c : Prop} [Decidable c]
    (h : p ∈ if c then [x] else []) : p = x := by
  by_cases hc : c
  · simpa [hc] using h
  · simp [hc] at h

theorem extractContent_fc (content : Option OAContent) :
    ∀ p ∈ (extractContent content).2, p.functionCall = none := by
  match content with
  | none => intro p hp; simp [extractContent] at hp
  | some (OAContent.str s) => intro p hp; simp [extractContent] at hp
  | some OAContent.other => intro p hp; simp [extractContent] at hp
  | some (OAContent.arr items) =>
    simp only [extractContent]
    refine foldl_induction _
      (fun (acc : String × List GPart) => ∀ p ∈ acc.2, p.functionCall = none) items ("", [])
      (by intro p hp; exact absurd hp (List.not_mem_nil p)) ?_
    intro b a _ hb p hp
    cases a with
    | text t => exact hb p hp
    | other => exact hb p hp
    | image_url u =>
      dsimp only at hp
      by_cases hd : jsStartsWith (u.getD "") "data:"
      · rw [if_pos hd] at hp
        cases hdp : dataUrlParse (u.getD "") with
        | some md =>
          rw [hdp] at hp
          rcases List.mem_append.1 hp with h1 | h1
          · exact hb p h1
          · have : p = { inlineData := some ⟨md.1, md.2⟩ } := by simpa using h1
            rw [this]
        | none =>
          rw [hdp] at hp
          exact hb p hp
      · rw [if_neg hd] at hp
        rcases List.mem_append.1 hp with h1 | h1
        · exact hb p h1
        · have : p = { fileData := some ⟨"image/jpeg", u.getD ""⟩ } := by simpa using h1
          rw [this]

theorem extractedParts_fc {ex : String × List GPart}
    (hex : ∀ p ∈ ex.2, p.functionCall = none) :
    ∀ p ∈ extractedParts ex, p.functionCall = none := by
  intro p hp
  rcases List.mem_append.1 hp with h | h
  · rw [mem_ite_nil_singleton h]
  · exact hex p h

theorem oaThinkParts_fc (ctx : SigContext) (et : Bool) (rc : Option String) :
    ∀ p ∈ oaThinkParts ctx et rc, p.functionCall = none := by
  intro p hp
  unfold oaThinkParts at hp
  by_cases h1 : et && jsTruthyStr rc
  · rw [if_pos h1] at hp
    have := mem_ite_nil_singleton hp
    rw [this]
    rfl
  · rw [if_neg h1] at hp
    by_cases h2 : et = true
    · rw [if_pos h2] at hp
      have := mem_ite_nil_singleton hp
      rw [this]
      rfl
    · rw [if_neg h2] at hp
      simp at hp

theorem oaContentParts_fc (content : Option OAContent) :
    ∀ p ∈ oaContentParts content, p.functionCall = none := by
  intro p hp
  unfold oaContentParts at hp
  by_cases h : jsTruthyContent content = true
  · rw [if_pos h] at hp
    exact extractedParts_fc (extractContent_fc content) p hp
  · rw [if_neg h] at hp
    simp at hp

theorem oaToolParts_sig (env : ConvEnv) (ctx : SigContext) (tcs : Option (List OAToolCall)) :
    ∀ p ∈ oaToolParts env ctx tcs, p.thoughtSignature = some (resolveToolSig ctx) := by
  match tcs with
  | none => intro p hp; simp [oaToolParts] at hp
  | some l =>
    simp only [oaToolParts]
    refine foldl_induction _
      (fun (ps : List GPart) => ∀ p ∈ ps, p.thoughtSignature = some (resolveToolSig ctx))
      l [] (by intro p hp; exact absurd hp (List.not_mem_nil p)) ?_
    intro b a _ hb p hp
    by_cases ht : a.type = "function"
    · rw [if_pos ht] at hp
      rcases List.mem_append.1 hp with h1 | h1
      · exact hb p h1
      · have : p = createFunctionCallPart a.id (env.processName a.function.name)
            (computeArgs env.parseJson a.function.arguments) (resolveToolSig ctx) := by
          simpa using h1
        rw [this]
        rfl
    · rw [if_neg ht] at hp
      exact hb p hp

theorem pushFunctionResponse_inv {sig : String} {contents : List GContent} {frPart : GPart}
    (h : fcSigned sig contents) (hfr : frPart.functionCall = none) :
    fcSigned sig (pushFunctionResponse contents frPart) := by
  have hfresh : ∀ c ∈ [(⟨"user", [frPart]⟩ : GContent)], ∀ p ∈ c.parts,
      p.functionCall.isSome = true → p.thoughtSignature = some sig := by
    intro c hc p hp hfc
    have hc2 : c = ⟨"user", [frPart]⟩ := by simpa using hc
    rw [hc2] at hp
    have : p = frPart := by simpa using hp
    rw [this, hfr] at hfc
    simp at hfc
  unfold pushFunctionResponse
  cases hl : contents.getLast? with
  | none =>
    dsimp only
    intro c hc p hp hfc
    rcases List.mem_append.1 hc with h1 | h1
    · exact h c h1 p hp hfc
    · exact hfresh c h1 p hp hfc
  | some last =>
    dsimp only
    by_cases hcond : last.role = "user" ∧ last.parts.any (fun p => p.functionResponse.isSome) = true
    · rw [if_pos hcond]
      intro c hc p hp hfc
      rcases List.mem_append.1 hc with h1 | h1
      · exact h c ((List.dropLast_sublist contents).subset h1) p hp hfc
      · have hc2 : c = { last with parts := last.parts ++ [frPart] } := by simpa using h1
        rw [hc2] at hp
        rcases List.mem_append.1 hp with h2 | h2
        · exact h last (mem_of_getLast?_eq hl) p h2 hfc
        · have : p = frPart := by simpa using h2
          rw [this, hfr] at hfc
          simp at hfc
    · rw [if_neg hcond]
      intro c hc p hp hfc
      rcases List.mem_append.1 hc with h1 | h1
      · exact h c h1 p hp hfc
      · exact hfresh c h1 p hp hfc

theorem convertOneOA_inv (env : ConvEnv) (ctx : SigContext) (et : Bool)
    (acc : List GContent × Option GContent) (msg : OAMessage)
    (h : fcSigned (resolveToolSig ctx) acc.1) :
    fcSigned (resolveToolSig ctx) (convertOneOA env ctx et acc msg).1 := by
  unfold convertOneOA
  by_cases h1 : msg.role = "system"
  · rw [if_pos h1]
    exact h
  rw [if_neg h1]
  by_cases h2 : msg.role = "user"
  · rw [if_pos h2]
    intro c hc p hp hfc
    rcases List.mem_append.1 hc with hcl | hcr
    · exact h c hcl p hp hfc
    · have hc2 : c = ⟨"user", extractedParts (extractContent msg.content)⟩ := by simpa using hcr
      rw [hc2] at hp
      have := extractedParts_fc (extractContent_fc msg.content) p hp
      rw [this] at hfc
      simp at hfc
  rw [if_neg h2]
  by_cases h3 : msg.role = "assistant"
  · rw [if_pos h3]
    dsimp only
    by_cases hemp : (oaThinkParts ctx et msg.reasoning_content ++ oaContentParts msg.content ++
        oaToolParts env ctx msg.tool_calls).isEmpty = true
    · rw [if_pos hemp]
      exact h
    · rw [if_neg hemp]
      intro c hc p hp hfc
      rcases List.mem_append.1 hc with hcl | hcr
      · exact h c hcl p hp hfc
      · have hc2 : c = ⟨"model", oaThinkParts ctx et msg.reasoning_content ++
            oaContentParts msg.content ++ oaToolParts env ctx msg.tool_calls⟩ := by
          simpa using hcr
        rw [hc2] at hp
        rcases List.mem_append.1 hp with hp1 | hp1
        · rcases List.mem_append.1 hp1 with hp2 | hp2
          · rw [oaThinkParts_fc ctx et msg.reasoning_content p hp2] at hfc
            simp at hfc
          · rw [oaContentParts_fc msg.content p hp2] at hfc
            simp at hfc
        · exact oaToolParts_sig env ctx msg.tool_calls p hp1
  rw [if_neg h3]
  by_cases h4 : msg.role = "tool"
  · rw [if_pos h4]
    exact pushFunctionResponse_inv h rfl
  · rw [if_neg h4]
    exact h

theorem convertMessages_fcSigned (env : ConvEnv) (messages : List OAMessage)
    (et : Bool) (amn : String) (ht : Bool) :
    fcSigned (resolveToolSig (msgSigContext env et amn ht))
      (convertMessages env messages et amn ht).1 := by
  simp only [convertMessages]
  refine foldl_induction _
    (fun (acc : List GContent × Option GContent) =>
      fcSigned (resolveToolSig (msgSigContext env et amn ht)) acc.1)
    messages ([], none) (by intro c hc; exact absurd hc (List.not_mem_nil c)) ?_
  intro b a _ hb
  exact convertOneOA_inv env _ et b a hb

theorem extractClaudeContent_fc (content : Option ClaudeContent) :
    ∀ p ∈ (extractClaudeContent content).2, p.functionCall = none := by
  match content with
  | none => intro p hp; simp [extractClaudeContent] at hp
  | some (ClaudeContent.str s) => intro p hp; simp [extractClaudeContent] at hp
  | some ClaudeContent.other => intro p hp; simp [extractClaudeContent] at hp
  | some (ClaudeContent.arr items) =>
    simp only [extractClaudeContent]
    refine foldl_induction _
      (fun (acc : String × List GPart) => ∀ p ∈ acc.2, p.functionCall = none) items ("", [])
      (by intro p hp; exact absurd hp (List.not_mem_nil p)) ?_
    intro b a _ hb p hp
    cases a with
    | text t => exact hb p hp
    | image st mt d =>
      dsimp only at hp
      by_cases hcond : st = some "base64" ∧ jsTruthyStr d = true
      · rw [if_pos hcond] at hp
        rcases List.mem_append.1 hp with h1 | h1
        · exact hb p h1
        · have : p = { inlineData := some ⟨if jsTruthyStr mt then mt.getD "" else "image/png",
              d.getD ""⟩ } := by simpa using h1
          rw [this]
      · rw [if_neg hcond] at hp
        exact hb p hp
    | thinking th sig => exact hb p hp
    | tool_use id nm input sig => exact hb p hp
    | tool_result id ct => exact hb p hp
    | other => exact hb p hp

theorem scanClaude_toolCalls_sig (env : ConvEnv) (ctx : SigContext)
    (items : List ClaudeContentItem)
    (hns : items.all (fun item =>
      match item with
      | ClaudeContentItem.tool_use _ _ _ sig => ! jsTruthyStr sig
      | _ => true) = true) :
    ∀ p ∈ (items.foldl (scanClaudeItem env ctx) {}).toolCalls,
      p.thoughtSignature = some (resolveToolSig ctx) := by
  refine foldl_induction _
    (fun (scan : ClaudeScan) => ∀ p ∈ scan.toolCalls,
      p.thoughtSignature = some (resolveToolSig ctx))
    items {} (by intro p hp; exact absurd hp (List.not_mem_nil p)) ?_
  intro b a ha hb p hp
  cases a with
  | text t => exact hb p hp
  | thinking th sig => exact hb p hp
  | tool_result id ct => exact hb p hp
  | other => exact hb p hp
  | image st mt d => exact hb p hp
  | tool_use id nm input sig =>
    have hsig : jsTruthyStr sig = false := by
      have := List.all_eq_true.1 hns _ ha
      simpa using this
    dsimp only [scanClaudeItem] at hp
    rcases List.mem_append.1 hp with h1 | h1
    · exact hb p h1
    · have hps : p = createFunctionCallPart id (env.processName nm)
          (some (if jTruthy input then input.getD (JValue.obj []) else JValue.obj []))
          ((jsOr sig (jsOr ctx.toolSignature
            (jsOr ctx.reasoningSignature (some SKIP_THOUGHT_SIGNATURE_VALIDATOR)))).getD
            SKIP_THOUGHT_SIGNATURE_VALIDATOR) := by simpa using h1
      rw [hps]
      show some ((jsOr sig _).getD _) = _
      rw [show jsOr sig (jsOr ctx.toolSignature
          (jsOr ctx.reasoningSignature (some SKIP_THOUGHT_SIGNATURE_VALIDATOR))) =
          jsOr ctx.toolSignature
            (jsOr ctx.reasoningSignature (some SKIP_THOUGHT_SIGNATURE_VALIDATOR)) from by
        unfold jsOr; rw [hsig]; simp]
      rfl

theorem claudeThinkParts_fc (ctx : SigContext) (et : Bool) (scan : ClaudeScan) :
    ∀ p ∈ claudeThinkParts ctx et scan, p.functionCall = none := by
  intro p hp
  unfold claudeThinkParts at hp
  by_cases h1 : et = true
  · rw [if_pos h1] at hp
    dsimp only at hp
    by_cases h2 : jsTruthyStr (jsOr scan.messageSignature
        (jsOr ctx.reasoningSignature ctx.toolSignature)) = true
    · rw [if_pos h2] at hp
      have hpx := List.mem_singleton.1 hp
      rw [hpx]
      rfl
    · rw [if_neg h2] at hp
      simp at hp
  · rw [if_neg h1] at hp
    simp at hp

theorem claudeTextParts_fc (scan : ClaudeScan) :
    ∀ p ∈ claudeTextParts scan, p.functionCall = none := by
  intro p hp
  unfold claudeTextParts at hp
  have := mem_ite_nil_singleton hp
  rw [this]

theorem convertOneToolResult_inv {sig : String} {contents : List GContent}
    (h : fcSigned sig contents) (toolUseId : Option String) (ct : Option ClaudeTRC) :
    fcSigned sig (convertOneToolResult contents toolUseId ct) :=
  pushFunctionResponse_inv h rfl

theorem convertOneClaude_inv (env : ConvEnv) (ctx : SigContext) (et : Bool)
    (contents : List GContent) (msg : ClaudeMessage)
    (h : fcSigned (resolveToolSig ctx) contents)
    (hm : claudeMsgNoOwnSig msg = true) :
    fcSigned (resolveToolSig ctx) (convertOneClaude env ctx et contents msg) := by
  unfold convertOneClaude
  by_cases h1 : msg.role = "user"
  · rw [if_pos h1]
    have huser : ∀ (ct : Option ClaudeContent),
        fcSigned (resolveToolSig ctx)
          (contents ++ [⟨"user", extractedParts (extractClaudeContent ct)⟩]) := by
      intro ct c hc p hp hfc
      rcases List.mem_append.1 hc with hcl | hcr
      · exact h c hcl p hp hfc
      · have hc2 : c = ⟨"user", extractedParts (extractClaudeContent ct)⟩ := by simpa using hcr
        rw [hc2] at hp
        rw [extractedParts_fc (extractClaudeContent_fc ct) p hp] at hfc
        simp at hfc
    match msg.content with
    | some (ClaudeContent.arr items) =>
      dsimp only
      by_cases htr : hasToolResult items = true
      · rw [if_pos htr]
        refine foldl_induction _ (fun cs => fcSigned (resolveToolSig ctx) cs) items contents h ?_
        intro b a _ hb
        cases a with
        | tool_result id ct => exact convertOneToolResult_inv hb id ct
        | text t => exact hb
        | image st mt d => exact hb
        | thinking th sg => exact hb
        | tool_use i n inp sg => exact hb
        | other => exact hb
      · rw [if_neg htr]
        exact huser _
    | none => exact huser none
    | some (ClaudeContent.str s) => exact huser _
    | some ClaudeContent.other => exact huser _
  rw [if_neg h1]
  by_cases h2 : msg.role = "assistant"
  · rw [if_pos h2]
    dsimp only
    have hscan : ∀ p ∈ (match msg.content with
        | some (ClaudeContent.str s) => ({ textContent := s } : ClaudeScan)
        | some (ClaudeContent.arr items) => items.foldl (scanClaudeItem env ctx) {}
        | _ => ({} : ClaudeScan)).toolCalls, p.thoughtSignature = some (resolveToolSig ctx) := by
      match hct : msg.content with
      | some (ClaudeContent.str s) => intro p hp; exact absurd hp (List.not_mem_nil p)
      | some (ClaudeContent.arr items) =>
        have hns : items.all (fun item =>
            match item with
            | ClaudeContentItem.tool_use _ _ _ sg => ! jsTruthyStr sg
            | _ => true) = true := by
          unfold claudeMsgNoOwnSig at hm
          rw [hct] at hm
          exact hm
        exact scanClaude_toolCalls_sig env ctx items hns
      | none => intro p hp; exact absurd hp (List.not_mem_nil p)
      | some ClaudeContent.other => intro p hp; exact absurd hp (List.not_mem_nil p)
    generalize hsc : (match msg.content with
        | some (ClaudeContent.str s) => ({ textContent := s } : ClaudeScan)
        | some (ClaudeContent.arr items) => items.foldl (scanClaudeItem env ctx) {}
        | _ => ({} : ClaudeScan)) = scan at hscan ⊢
    by_cases hemp : (claudeThinkParts ctx et scan ++ claudeTextParts scan ++
        scan.toolCalls).isEmpty = true
    · rw [if_pos hemp]
      exact h
    · rw [if_neg hemp]
      intro c hc p hp hfc
      rcases List.mem_append.1 hc with hcl | hcr
      · exact h c hcl p hp hfc
      · have hc2 : c = ⟨"model", claudeThinkParts ctx et scan ++ claudeTextParts scan ++
            scan.toolCalls⟩ := by simpa using hcr
        rw [hc2] at hp
        rcases List.mem_append.1 hp with hp1 | hp1
        · rcases List.mem_append.1 hp1 with hp2 | hp2
          · rw [claudeThinkParts_fc ctx et scan p hp2] at hfc
            simp at hfc
          · rw [claudeTextParts_fc scan p hp2] at hfc
            simp at hfc
        · exact hscan p hp1
  · rw [if_neg h2]
    exact h

theorem convertClaudeMessages_fcSigned (env : ConvEnv) (messages : List ClaudeMessage)
    (et : Bool) (amn : String) (ht : Bool)
    (hns : claudeNoOwnSig messages = true) :
    fcSigned (resolveToolSig (msgSigContext env et amn ht))
      (convertClaudeMessages env messages et amn ht) := by
  simp only [convertClaudeMessages]
  refine foldl_induction _
    (fun (cs : List GContent) => fcSigned (resolveToolSig (msgSigContext env et amn ht)) cs)
    messages [] (by intro c hc; exact absurd hc (List.not_mem_nil c)) ?_
  intro b a ha hb
  exact convertOneClaude_inv env _ et b a hb (List.all_eq_true.1 hns a ha)

theorem jsOr_truthy (a b : Option String) :
    jsTruthyStr (jsOr a b) = (jsTruthyStr a || jsTruthyStr b) := by
  unfold jsOr
  by_cases h : jsTruthyStr a = true <;> simp [h]

/-- Whatever the cache and the hardcoded defaults hold, the context
getGeminiCliSignatureContext resolves always has a truthy
toolSignature-or-reasoningSignature fallback. -/
theorem ctx_toolFallback_truthy (cache : SigCache) (ht htl : String → Option String)
    (model : String) (hasTools : Bool) :
    jsTruthyStr (jsOr (getGeminiCliSignatureContext cache ht htl model hasTools).toolSignature
      (getGeminiCliSignatureContext cache ht htl model hasTools).reasoningSignature) = true := by
  unfold getGeminiCliSignatureContext
  by_cases h1 : (jsTruthyStr (getSignatureContext cache model hasTools).reasoningSignature ||
      jsTruthyStr (getSignatureContext cache model hasTools).toolSignature) = true
  · rw [if_pos h1, jsOr_truthy]
    rcases Bool.or_eq_true_iff.1 h1 with h | h <;> simp [h]
  · rw [if_neg h1]
    dsimp only
    by_cases h2 : (jsTruthyStr (ht model) ||
        jsTruthyStr (if hasTools then htl model else ht model)) = true
    · rw [if_pos h2]
      dsimp only
      rw [jsOr_truthy, jsOr_truthy, jsOr_truthy]
      rcases Bool.or_eq_true_iff.1 h2 with h | h <;> simp [h]
    · rw [if_neg h2]
      rfl

theorem standaloneSigs_truthy (parts : List GPart) :
    ∀ s ∈ standaloneSigs parts, jsTruthyStr s = true := by
  intro s hs
  unfold standaloneSigs at hs
  rcases List.mem_map.1 hs with ⟨p, hp, hps⟩
  have hst := (List.mem_filter.1 hp).2
  unfold isStandaloneSignaturePart at hst
  rw [← hps]
  exact (Bool.and_eq_true_iff.1 ((Bool.and_eq_true_iff.1 ((Bool.and_eq_true_iff.1
    ((Bool.and_eq_true_iff.1 ((Bool.and_eq_true_iff.1 hst).1)).1)).1)).1)).1

theorem removeUsedStandalone_mem :
    ∀ (used : Nat) (l : List GPart) (p : GPart), p ∈ removeUsedStandalone used l → p ∈ l := by
  intro used l
  induction l generalizing used with
  | nil => intro p hp; simp [removeUsedStandalone] at hp
  | cons q rest ih =>
    intro p hp
    unfold removeUsedStandalone at hp
    by_cases hq : isStandaloneSignaturePart q = true
    · rw [if_pos hq] at hp
      by_cases hu : used = 0
      · rw [if_pos hu] at hp
        rcases List.mem_cons.1 hp with h | h
        · rw [h]; exact List.mem_cons_self q rest
        · exact List.mem_cons_of_mem q (ih 0 p h)
      · rw [if_neg hu] at hp
        exact List.mem_cons_of_mem q (ih (used - 1) p hp)
    · rw [if_neg hq] at hp
      rcases List.mem_cons.1 hp with h | h
      · rw [h]; exact List.mem_cons_self q rest
      · exact List.mem_cons_of_mem q (ih used p h)

theorem assignSigs_fc_truthy (ts rs : Option String)
    (hfb : jsTruthyStr (jsOr ts rs) = true) :
    ∀ (l : List GPart) (stand : List (Option String)),
      (∀ s ∈ stand, jsTruthyStr s = true) →
      ∀ p ∈ (assignSigs ts rs stand l).1,
        p.functionCall.isSome = true → jsTruthyStr p.thoughtSignature = true := by
  intro l
  induction l with
  | nil => intro stand _ p hp; simp [assignSigs] at hp
  | cons q rest ih =>
    intro stand hs p hp hfc
    unfold assignSigs at hp
    by_cases hcond : ¬ jsTruthyStr q.thoughtSignature = true ∧
        (q.functionCall.isSome = true ∨ q.inlineData.isSome = true)
    · rw [if_pos hcond] at hp
      cases stand with
      | cons s stand' =>
        dsimp only at hp
        rcases List.mem_cons.1 hp with h | h
        · rw [h]
          exact hs s (List.mem_cons_self s stand')
        · exact ih stand' (fun x hx => hs x (List.mem_cons_of_mem s hx)) p h hfc
      | nil =>
        dsimp only at hp
        rcases List.mem_cons.1 hp with h | h
        · by_cases hqfc : q.functionCall.isSome = true
          · rw [if_pos hqfc] at h
            have hpf : jsTruthyStr (jsOr ts rs) = true := hfb
            rw [if_pos hpf] at h
            rw [h]
            exact hpf
          · exfalso
            apply hqfc
            have : p.functionCall = q.functionCall := by
              rw [h]
              by_cases hx : jsTruthyStr (if q.functionCall.isSome = true then jsOr ts rs
                  else jsOr rs ts) = true
              · rw [if_pos hx]
              · rw [if_neg hx]
            rw [← this]
            exact hfc
        · exact ih [] (by intro x hx; exact absurd hx (List.not_mem_nil x)) p h hfc
    · rw [if_neg hcond] at hp
      dsimp only at hp
      rcases List.mem_cons.1 hp with h | h
      · push_neg at hcond
        rcases Decidable.em (jsTruthyStr q.thoughtSignature = true) with hq | hq
        · rw [h]; exact hq
        · exfalso
          have := hcond hq
          rw [h] at hfc
          exact (this.1 hfc).elim
      · exact ih stand hs p h hfc

/-- With thinking enabled and a truthy tool-or-reasoning fallback,
every functionCall part of the processed parts carries a truthy
signature. -/
theorem processThoughts_fc_truthy (rs rc ts tc : Option String) (parts : List GPart)
    (hfb : jsTruthyStr (jsOr ts rs) = true) :
    ∀ p ∈ processGeminiModelThoughts rs rc ts tc true parts,
      p.functionCall.isSome = true → jsTruthyStr p.thoughtSignature = true := by
  intro p hp hfc
  have hp2 : p ∈ (assignSigs ts rs
      (standaloneSigs (mergeThoughtPhase (jsOr rs ts)
        (if jsOr rs ts = rs then (if jsTruthyStr rc then rc.getD "" else " ")
          else (if jsTruthyStr tc then tc.getD "" else " ")) parts))
      (mergeThoughtPhase (jsOr rs ts)
        (if jsOr rs ts = rs then (if jsTruthyStr rc then rc.getD "" else " ")
          else (if jsTruthyStr tc then tc.getD "" else " ")) parts)).1 := by
    apply removeUsedStandalone_mem _ _ p
    simpa [processGeminiModelThoughts] using hp
  exact assignSigs_fc_truthy ts rs hfb _ _ (standaloneSigs_truthy _) p hp2 hfc

/-- C4 (amended): what the converters guarantee about function-call
signatures.  OpenAI dialect: every functionCall part of the built
contents carries exactly the resolved tool signature
(toolSignature || reasoningSignature || sentinel over the message
signature context).  Claude dialect: the same, provided no tool_use item
brings its own truthy signature (an own signature wins otherwise).
Gemini dialect: when the model-name/config derivation disables thinking
the contents pass through completely unchanged - no signature is
attached to anything - and when it enables thinking every functionCall
part of every model content ends up with a truthy thought signature. -/
theorem toolcall_signature (env : ConvEnv) (enableThinking : Bool)
    (actualModelName : String) (hasTools : Bool) :
    (∀ messages : List OAMessage,
      fcSigned (resolveToolSig (msgSigContext env enableThinking actualModelName hasTools))
        (convertMessages env messages enableThinking actualModelName hasTools).1) ∧
    (∀ messages : List ClaudeMessage, claudeNoOwnSig messages = true →
      fcSigned (resolveToolSig (msgSigContext env enableThinking actualModelName hasTools))
        (convertClaudeMessages env messages enableThinking actualModelName hasTools)) ∧
    (∀ (modelName : String) (contents : List GContent),
      (convertGeminiToGeminiCli env modelName contents hasTools).enableThinking = false →
        (convertGeminiToGeminiCli env modelName contents hasTools).contents = contents) ∧
    (∀ (modelName : String) (contents : List GContent),
      (convertGeminiToGeminiCli env modelName contents hasTools).enableThinking = true →
      ∀ c ∈ (convertGeminiToGeminiCli env modelName contents hasTools).contents,
        c.role = "model" → ∀ p ∈ c.parts, p.functionCall.isSome = true →
          jsTruthyStr p.thoughtSignature = true) := by
  refine ⟨fun messages =>
      convertMessages_fcSigned env messages enableThinking actualModelName hasTools,
    fun messages hns =>
      convertClaudeMessages_fcSigned env messages enableThinking actualModelName hasTools hns,
    ?_, ?_⟩
  · intro modelName contents hdis
    have hb : computeEnableThinking env.thinkingFor (extractFeatures modelName)
        (getActualApiModelName modelName) = false := hdis
    simp [convertGeminiToGeminiCli, hb]
  · intro modelName contents hen c hc hrole p hp hfc
    have hb : computeEnableThinking env.thinkingFor (extractFeatures modelName)
        (getActualApiModelName modelName) = true := hen
    simp only [convertGeminiToGeminiCli, hb, if_true] at hc
    rcases List.mem_map.1 hc with ⟨c0, hc0, hcf⟩
    by_cases hr : c0.role = "model"
    · have hp2 : p ∈ processGeminiModelThoughts
          (getGeminiCliSignatureContext env.cache env.hardThought env.hardTool
            (getActualApiModelName modelName) hasTools).reasoningSignature
          (getGeminiCliSignatureContext env.cache env.hardThought env.hardTool
            (getActualApiModelName modelName) hasTools).reasoningContent
          (getGeminiCliSignatureContext env.cache env.hardThought env.hardTool
            (getActualApiModelName modelName) hasTools).toolSignature
          (getGeminiCliSignatureContext env.cache env.hardThought env.hardTool
            (getActualApiModelName modelName) hasTools).toolContent
          true c0.parts := by
        rw [← hcf] at hp
        simpa [hr] using hp
      exact processThoughts_fc_truthy _ _ _ _ c0.parts
        (ctx_toolFallback_truthy env.cache env.hardThought env.hardTool
          (getActualApiModelName modelName) hasTools) p hp2 hfc
    · rw [← hcf] at hrole
      simp [hr] at hrole

/-- Concrete instance of the signature attachment: converting one
OpenAI assistant message with one tool call (thinking disabled, tools
present, nothing cached) yields a functionCall part carrying the
resolved sentinel signature. -/
theorem toolcall_signature_witness :
    wC4Part.thoughtSignature =
      some (resolveToolSig (msgSigContext wC4Env false "gemini-2.5-pro" true)) :=
  (toolcall_signature wC4Env false "gemini-2.5-pro" true).1 [wC4Msg]
    ⟨"model", [wC4Part]⟩
    (by
      rw [show (convertMessages wC4Env [wC4Msg] false "gemini-2.5-pro" true).1 =
        [⟨"model", [wC4Part]⟩] from rfl]
      exact List.mem_singleton_self _)
    wC4Part (List.mem_singleton_self _) rfl

/-- Counterexample to C4 as stated: for the Gemini dialect with
thinking disabled (model gemini-2.5-pro-nothinking), the converter
returns the contents unchanged, so the unsigned functionCall part keeps
no signature at all, even though the resolved tool-bucket signature for
the request is the cached T. -/
theorem toolcall_signature_counterexample :
    (convertGeminiToGeminiCli cexC4Env "gemini-2.5-pro-nothinking" cexC4Contents
        true).enableThinking = false ∧
    (convertGeminiToGeminiCli cexC4Env "gemini-2.5-pro-nothinking" cexC4Contents
        true).contents = cexC4Contents ∧
    cexC4Part.functionCall.isSome = true ∧
    cexC4Part.thoughtSignature = none ∧
    (getGeminiCliSignatureContext cexC4Env.cache cexC4Env.hardThought cexC4Env.hardTool
      (getActualApiModelName "gemini-2.5-pro-nothinking") true).toolSignature = some "T" ∧
    resolveToolSig (getGeminiCliSignatureContext cexC4Env.cache cexC4Env.hardThought
      cexC4Env.hardTool (getActualApiModelName "gemini-2.5-pro-nothinking") true) = "T" :=
  ⟨rfl, rfl, rfl, rfl, rfl, rfl⟩

theorem chkRun_append (q : ChkState) (a b : List CEvent) :
    chkRun q (a ++ b) = chkRun (chkRun q a) b := by
  simp [chkRun, List.foldl_append]

theorem toolFold_abs (tcs : List WToolCall) :
    ∀ (acc : CWState × List CEvent), chkRun ChkState.top acc.2 = ChkState.top →
      chkRun ChkState.top (tcs.foldl toolStep acc).2 = ChkState.top ∧
      (tcs.foldl toolStep acc).1.hasThinkingBlock = acc.1.hasThinkingBlock ∧
      (tcs.foldl toolStep acc).1.hasTextBlock = acc.1.hasTextBlock ∧
      (tcs.foldl toolStep acc).1.hasStarted = acc.1.hasStarted := by
  induction tcs with
  | nil => intro acc h; exact ⟨h, rfl, rfl, rfl⟩
  | cons tc rest ih =>
    intro acc h
    have hstep : chkRun ChkState.top (toolStep acc tc).2 = ChkState.top := by
      show chkRun ChkState.top (acc.2 ++ _) = ChkState.top
      rw [chkRun_append, h]
      simp [chkRun, chkStep]
    have := ih (toolStep acc tc) hstep
    exact ⟨this.1, this.2.1, this.2.2.1, this.2.2.2⟩

theorem WOk_started {sawC : Bool} {s : CWState}
    (h1 : s.hasThinkingBlock = true → s.hasTextBlock = false)
    (h2 : s.hasStarted = true)
    (h3 : s.hasTextBlock = true → sawC = true) : WOk sawC s :=
  ⟨h1, fun h => Bool.noConfusion (h2.symm.trans h), h3⟩

theorem toolFold_flags (tcs : List WToolCall) (s : CWState)
    (hth : s.hasThinkingBlock = false) (htx : s.hasTextBlock = false)
    (hs : s.hasStarted = true) :
    chkRun ChkState.top (tcs.foldl toolStep (s, [])).2 = ChkState.top ∧
    (tcs.foldl toolStep (s, [])).1.hasThinkingBlock = false ∧
    (tcs.foldl toolStep (s, [])).1.hasTextBlock = false ∧
    (tcs.foldl toolStep (s, [])).1.hasStarted = true := by
  have h := toolFold_abs tcs (s, []) rfl
  refine ⟨h.1, ?_, ?_, ?_⟩
  · rw [h.2.1]; exact hth
  · rw [h.2.2.1]; exact htx
  · rw [h.2.2.2]; exact hs

theorem startGuard_abs (s : CWState) (sawC : Bool) (hw : WOk sawC s) :
    chkRun (absState s) (startGuard s).2 = absState (startGuard s).1 ∧
    (startGuard s).1.hasStarted = true ∧
    (startGuard s).1.hasThinkingBlock = s.hasThinkingBlock ∧
    (startGuard s).1.hasTextBlock = s.hasTextBlock ∧
    (startGuard s).1.blockIndex = s.blockIndex := by
  obtain ⟨hw1, hw2, hw3⟩ := hw
  by_cases hs : s.hasStarted = true
  · have hsp : startGuard s = (s, []) := by simp [startGuard, hs]
    rw [hsp]
    exact ⟨rfl, hs, rfl, rfl, rfl⟩
  · have hth := (hw2 (by simpa using hs)).1
    have htx := (hw2 (by simpa using hs)).2
    refine ⟨?_, ?_, ?_, ?_, ?_⟩ <;>
      simp [startGuard, hs, absState, chkRun, chkStep, hth, htx]

theorem claudeOnStarted_abs (s : CWState) (e : NEvent) (sawC : Bool)
    (hs : s.hasStarted = true) (hw : WOk sawC s)
    (hsafe : ∀ rc sig, e = NEvent.reasoning rc sig → sawC = false) :
    chkRun (absState s) (claudeOnStarted s e).2 = absState (claudeOnStarted s e).1 ∧
    WOk (sawCAfter sawC e) (claudeOnStarted s e).1 ∧
    (claudeOnStarted s e).1.hasStarted = true := by
  obtain ⟨i, st, th, tx, tc, ud, sg⟩ := s
  obtain ⟨hw1, hw2, hw3⟩ := hw
  simp only at hs
  subst hs
  cases e with
  | nullEvent => exact ⟨rfl, ⟨hw1, hw2, hw3⟩, rfl⟩
  | usage u =>
    exact ⟨by simp [claudeOnStarted, absState, chkRun], WOk_started hw1 rfl hw3, rfl⟩
  | reasoning rc sig =>
    have hsc : sawC = false := hsafe rc sig rfl
    have htx : tx = false := by
      cases hx : tx with
      | false => rfl
      | true => rw [hw3 (by simp [hx])] at hsc; exact absurd hsc (by simp)
    subst htx
    cases th with
    | true =>
      refine ⟨?_, ⟨?_, ?_, ?_⟩, ?_⟩ <;>
        simp [claudeOnStarted, absState, chkRun, chkStep, sawCAfter, hsc]
    | false =>
      refine ⟨?_, ⟨?_, ?_, ?_⟩, ?_⟩ <;>
        simp [claudeOnStarted, absState, chkRun, chkStep, sawCAfter, hsc]
  | tool_calls otcs =>
    cases th with
    | true =>
      have htx : tx = false := by simpa using hw1 (by simp)
      subst htx
      have hfold := toolFold_flags (otcs.getD [])
        (⟨i + 1, true, false, false, true, ud, sg⟩ : CWState) rfl rfl rfl
      have hf1 := hfold.1
      rw [chkRun] at hf1
      refine ⟨?_, ⟨?_, ?_, ?_⟩, ?_⟩ <;>
        simp [claudeOnStarted, closeThinkingIfNoText, closeText, absState, chkRun_append,
          sawCAfter, hf1, hfold.2.1, hfold.2.2.1, hfold.2.2.2, chkRun, chkStep]
    | false =>
      cases tx with
      | true =>
        have hfold := toolFold_flags (otcs.getD [])
          (⟨i + 1, true, false, false, true, ud, sg⟩ : CWState) rfl rfl rfl
        have hf1 := hfold.1
        rw [chkRun] at hf1
        refine ⟨?_, ⟨?_, ?_, ?_⟩, ?_⟩ <;>
          simp [claudeOnStarted, closeThinkingIfNoText, closeText, absState, chkRun_append,
            sawCAfter, hf1, hfold.2.1, hfold.2.2.1, hfold.2.2.2, chkRun, chkStep]
      | false =>
        have hfold := toolFold_flags (otcs.getD [])
          (⟨i, true, false, false, true, ud, sg⟩ : CWState) rfl rfl rfl
        have hf1 := hfold.1
        rw [chkRun] at hf1
        refine ⟨?_, ⟨?_, ?_, ?_⟩, ?_⟩ <;>
          simp [claudeOnStarted, closeThinkingIfNoText, closeText, absState, chkRun_append,
            sawCAfter, hf1, hfold.2.1, hfold.2.2.1, hfold.2.2.2, chkRun, chkStep]
  | content c =>
    by_cases hc : jsTruthyStr c = true
    · cases th with
      | true =>
        have htx : tx = false := by simpa using hw1 (by simp)
        subst htx
        refine ⟨?_, ⟨?_, ?_, ?_⟩, ?_⟩ <;>
          simp [claudeOnStarted, closeThinkingIfNoText, hc, absState, chkRun, chkStep,
            sawCAfter]
      | false =>
        cases tx with
        | true =>
          refine ⟨?_, ⟨?_, ?_, ?_⟩, ?_⟩ <;>
            simp [claudeOnStarted, closeThinkingIfNoText, hc, absState, chkRun, chkStep,
              sawCAfter]
        | false =>
          refine ⟨?_, ⟨?_, ?_, ?_⟩, ?_⟩ <;>
            simp [claudeOnStarted, closeThinkingIfNoText, hc, absState, chkRun, chkStep,
              sawCAfter]
    · refine ⟨?_, ⟨?_, ?_, ?_⟩, ?_⟩ <;>
        simp [claudeOnStarted, hc, absState, chkRun, sawCAfter, hw1, hw3] <;>
        first
        | exact fun h => by simpa using hw1 (by simpa using h)
        | exact fun h => hw3 (by simpa using h)

theorem claudeOnEvent_abs (s : CWState) (e : NEvent) (sawC : Bool)
    (hw : WOk sawC s)
    (hsafe : ∀ rc sig, e = NEvent.reasoning rc sig → sawC = false) :
    chkRun (absState s) (claudeOnEvent s e).2 = absState (claudeOnEvent s e).1 ∧
    WOk (sawCAfter sawC e) (claudeOnEvent s e).1 ∧
    (claudeOnEvent s e).1.hasStarted = (s.hasStarted || isRealEvent e) := by
  have hpre := startGuard_abs s sawC hw
  obtain ⟨hw1, hw2, hw3⟩ := hw
  have hw' : WOk sawC (startGuard s).1 := by
    refine ⟨?_, ?_, ?_⟩
    · rw [hpre.2.2.1, hpre.2.2.2.1]; exact hw1
    · intro hss; rw [hpre.2.1] at hss; exact absurd hss (by simp)
    · rw [hpre.2.2.2.1]; exact hw3
  cases e with
  | nullEvent =>
    refine ⟨rfl, ⟨hw1, hw2, hw3⟩, by simp [claudeOnEvent, isRealEvent]⟩
  | usage u =>
    have hst := claudeOnStarted_abs (startGuard s).1 (NEvent.usage u) sawC hpre.2.1 hw'
      (by intro rc sig h; exact absurd h (by simp))
    refine ⟨?_, hst.2.1, ?_⟩
    · show chkRun (absState s) ((startGuard s).2 ++ _) = _
      rw [chkRun_append, hpre.1]
      exact hst.1
    · show (claudeOnStarted (startGuard s).1 _).1.hasStarted = _
      rw [hst.2.2]
      simp [isRealEvent]
  | reasoning rc sig =>
    have hst := claudeOnStarted_abs (startGuard s).1 (NEvent.reasoning rc sig) sawC
      hpre.2.1 hw' (by intro rc' sig' h; exact hsafe rc' sig' (by simpa using h))
    refine ⟨?_, hst.2.1, ?_⟩
    · show chkRun (absState s) ((startGuard s).2 ++ _) = _
      rw [chkRun_append, hpre.1]
      exact hst.1
    · show (claudeOnStarted (startGuard s).1 _).1.hasStarted = _
      rw [hst.2.2]
      simp [isRealEvent]
  | tool_calls otcs =>
    have hst := claudeOnStarted_abs (startGuard s).1 (NEvent.tool_calls otcs) sawC
      hpre.2.1 hw' (by intro rc sig h; exact absurd h (by simp))
    refine ⟨?_, hst.2.1, ?_⟩
    · show chkRun (absState s) ((startGuard s).2 ++ _) = _
      rw [chkRun_append, hpre.1]
      exact hst.1
    · show (claudeOnStarted (startGuard s).1 _).1.hasStarted = _
      rw [hst.2.2]
      simp [isRealEvent]
  | content c =>
    have hst := claudeOnStarted_abs (startGuard s).1 (NEvent.content c) sawC
      hpre.2.1 hw' (by intro rc sig h; exact absurd h (by simp))
    refine ⟨?_, hst.2.1, ?_⟩
    · show chkRun (absState s) ((startGuard s).2 ++ _) = _
      rw [chkRun_append, hpre.1]
      exact hst.1
    · show (claudeOnStarted (startGuard s).1 _).1.hasStarted = _
      rw [hst.2.2]
      simp [isRealEvent]

theorem runEvents_abs : ∀ (events : List NEvent) (s : CWState) (sawC : Bool),
    reasoningSafeFrom sawC events = true → WOk sawC s →
    chkRun (absState s) (runEvents s events).2 = absState (runEvents s events).1 ∧
    WOk (events.foldl sawCAfter sawC) (runEvents s events).1 ∧
    (runEvents s events).1.hasStarted = (s.hasStarted || events.any isRealEvent) := by
  intro events
  induction events with
  | nil =>
    intro s sawC _ hw
    exact ⟨rfl, hw, by simp [runEvents]⟩
  | cons e rest ih =>
    intro s sawC hsafe hw
    have hsafehead : ∀ rc sig, e = NEvent.reasoning rc sig → sawC = false := by
      intro rc sig he
      subst he
      simp [reasoningSafeFrom] at hsafe
      simpa using hsafe.1
    have hsaferest : reasoningSafeFrom (sawCAfter sawC e) rest = true := by
      cases e with
      | reasoning rc sig =>
        simp [reasoningSafeFrom] at hsafe
        simpa [sawCAfter] using hsafe.2
      | nullEvent => simpa [reasoningSafeFrom, sawCAfter] using hsafe
      | usage u => simpa [reasoningSafeFrom, sawCAfter] using hsafe
      | tool_calls otcs => simpa [reasoningSafeFrom, sawCAfter] using hsafe
      | content c => simpa [reasoningSafeFrom, sawCAfter] using hsafe
    have hstep := claudeOnEvent_abs s e sawC hw hsafehead
    have hrest := ih (claudeOnEvent s e).1 (sawCAfter sawC e) hsaferest hstep.2.1
    refine ⟨?_, hrest.2.1, ?_⟩
    · show chkRun (absState s)
        ((claudeOnEvent s e).2 ++ (runEvents (claudeOnEvent s e).1 rest).2) = _
      rw [chkRun_append, hstep.1]
      exact hrest.1
    · show (runEvents (claudeOnEvent s e).1 rest).1.hasStarted = _
      rw [hrest.2.2, hstep.2.2]
      simp [Bool.or_assoc]

theorem claudeFinalize_done (s : CWState) (hs : s.hasStarted = true)
    (hw1 : s.hasThinkingBlock = true → s.hasTextBlock = false) :
    chkRun (absState s) (claudeFinalize s) = ChkState.done := by
  obtain ⟨i, st, th, tx, tc, ud, sg⟩ := s
  simp only at hs hw1
  subst hs
  cases th with
  | true =>
    have htx : tx = false := by simpa using hw1 rfl
    subst htx
    simp [claudeFinalize, absState, chkRun, chkStep]
  | false =>
    cases tx with
    | true => simp [claudeFinalize, absState, chkRun, chkStep]
    | false => simp [claudeFinalize, absState, chkRun, chkStep]

/-- C6 (amended): for every upstream transcript with at least one real
(non-falsy) event in which no reasoning event follows a truthy content
event - the order this proxy's upstream always uses - the Claude stream
writer emits a well-shaped stream: message_start first, every content
block an uninterleaved start/deltas/stop run over a single block kind
(so a thinking and a text block are never open simultaneously), and
message_delta followed by message_stop at the end.  Without these
hypotheses the claim fails, see the counterexample. -/
theorem claude_stream_shape (events : List NEvent)
    (hsafe : reasoningSafe events = true)
    (hreal : events.any isRealEvent = true) :
    acceptsClaude (runClaudeWriter events) = true := by
  have hw0 : WOk false ({} : CWState) :=
    ⟨fun h => Bool.noConfusion h, fun _ => ⟨rfl, rfl⟩, fun h => Bool.noConfusion h⟩
  have h := runEvents_abs events {} false hsafe hw0
  have h0 : absState ({} : CWState) = ChkState.start := by simp [absState]
  rw [h0] at h
  have hstart : (runEvents {} events).1.hasStarted = true := by
    rw [h.2.2]
    simpa using hreal
  have hfin := claudeFinalize_done (runEvents {} events).1 hstart h.2.1.1
  have hall : chkRun ChkState.start (runClaudeWriter events) = ChkState.done := by
    simp only [runClaudeWriter]
    rw [chkRun_append, h.1]
    exact hfin
  simp [acceptsClaude, hall]

/-- Concrete instance of the stream shape: the thinking-then-text
transcript produces an accepted stream. -/
theorem claude_stream_shape_witness : acceptsClaude (runClaudeWriter wC6Events) = true :=
  claude_stream_shape wC6Events (by decide) (by decide)

/-- Counterexample to C6 as stated: when a reasoning event arrives
after content, the writer opens a thinking block at the same index as
the still-open text block (the reasoning branch never closes an open
text block), the text block never gets its own content_block_stop, and
the checker rejects the stream.  The second conjunct lists the emitted
events: block_start_thinking follows block_delta_text with no
intervening block_stop, so a thinking and a text block are open
simultaneously. -/
theorem claude_stream_shape_counterexample :
    acceptsClaude (runClaudeWriter cexC6Events) = false ∧
    runClaudeWriter cexC6Events =
      [CEvent.message_start, CEvent.block_start_text 0,
        CEvent.block_delta_text (some "a") 0,
        CEvent.block_start_thinking none 0, CEvent.block_delta_thinking (some "r") 0,
        CEvent.block_stop 0, CEvent.message_delta "end_turn" 0, CEvent.message_stop] :=
  ⟨by decide, by decide⟩

/-- C7: for a streaming CLI request with the 假流式/ fake-streaming
model prefix, the handler takes the fake-streaming branch, so the
upstream chat call uses the non-streaming :generateContent endpoint,
not :streamGenerateContent; and for the collected result
(content A, no tool calls, usage) the client receives exactly a data:
chunk whose delta carries content A, a final data: chunk with
finish_reason stop and the usage, and the data: [DONE] terminator, in
this order. -/
theorem fakestream_behavior :
    useFakeStreaming "假流式/gemini-2.5-pro" true = true ∧
    cliUpstreamStream "假流式/gemini-2.5-pro" true = false ∧
    buildApiUrl none none (cliUpstreamStream "假流式/gemini-2.5-pro" true) =
      "https://cloudcode-pa.googleapis.com/v1internal:generateContent" ∧
    buildApiUrl none none (cliUpstreamStream "假流式/gemini-2.5-pro" true) ≠
      "https://cloudcode-pa.googleapis.com/v1internal:streamGenerateContent?alt=sse" ∧
    handleCliFakeStream "chatcmpl-1" 123 "假流式/gemini-2.5-pro"
        ⟨some "A", none, none, some [], some ⟨3, 5, 8⟩⟩ =
      [SSEFrame.data s5ContentChunk, SSEFrame.data s5FinalChunk, SSEFrame.done] :=
  ⟨by decide, by decide, by decide, by decide, by decide⟩

end AG
